import Mathlib

/-!
Verification of the core of `othello.c` (tom-weatherhead/othello-1992).

The C program's core consists of:
- an 8x8 board of characters (`' '` empty, `'X'`, `'O'`),
- two mutually-linked player records carrying a marker character and a
  live piece count (unsigned int),
- `compute_effect` (apply a move: scan the 8 directions, flip captured
  runs, place the marker, update both counts, return the heuristic gain
  and the list of flipped cells),
- the inline undo in `best_move` (remove the marker, restore counts,
  flip the changed cells back to the opponent's marker),
- `best_move`, a recursive minimax search with alpha-beta pruning.

The shallow embedding below translates these as Lean functions.  The
board is a total function `Fin 8 → Fin 8 → Char`; the two unsigned
counters live in a state record and are updated modulo 2^32, mirroring
C unsigned arithmetic.  The C walk uses unsigned coordinates so that a
step off the top/left edge wraps to a huge value and fails the
`row2 >= BOARD_SIZE` test; we model coordinates of the walk as `Int`
with an explicit range test, which is equivalent for steps of +-1 from
an in-range cell.

`best_move` in C returns a linked chain of move records via an
out-parameter (NULL when no legal move exists) and the chosen score;
the chain for ties is selected by `rand()`.  Chain contents never feed
back into the board, the counts, or any score, so the embedding keeps
the full candidate list (`best_moves[0..num_best_moves)`, identified by
the root coordinates of each chain) instead of a randomly chosen single
element; the empty list plays the role of the NULL chain.
-/

namespace Othello

/-- `BOARD_SIZE` from the C source. -/
def BOARD_SIZE : Nat := 8

/-- Modulus of C `unsigned int` arithmetic. -/
def UINT_MOD : Nat := 4294967296

/-- `INIT_MAX_EFFECT` from the C source: `-9*BOARD_AREA`. -/
def INIT_MAX_EFFECT : Int := -9 * 64

/-- `idx_weight(x)`: `(x==0||x==BOARD_SIZE-1) ? BOARD_SIZE : 1`. -/
def idx_weight (x : Nat) : Nat :=
  if x = 0 ∨ x = BOARD_SIZE - 1 then BOARD_SIZE else 1

/-- `h_func(r,c)`: `idx_weight(r)*idx_weight(c)`. -/
def h_func (r c : Nat) : Nat := idx_weight r * idx_weight c

/-- The board: `char board[BOARD_SIZE][BOARD_SIZE]` (the extra NUL
column of the C array is for printing only and is not modelled). -/
abbrev Board := Fin 8 → Fin 8 → Char

/-- Writing one cell of the board. -/
def setCell (b : Board) (r c : Fin 8) (ch : Char) : Board :=
  fun i j => if i = r ∧ j = c then ch else b i j

/-- The two players (`x_data` / `o_data` in `main`). -/
inductive Player
  | X
  | O
deriving DecidableEq

/-- `player->marker`: `main` assigns `'X'` and `'O'`. -/
def Player.marker : Player → Char
  | .X => 'X'
  | .O => 'O'

/-- `player->opponent`: the records form a fixed mutual pair. -/
def Player.opponent : Player → Player
  | .X => .O
  | .O => .X

/-- The mutable global state touched by the core: the board array and
the two players' `count` fields. -/
@[ext]
structure St where
  board : Board
  cntX : Nat
  cntO : Nat

/-- `player->count`. -/
def St.cnt (s : St) : Player → Nat
  | .X => s.cntX
  | .O => s.cntO

/-- Store into `player->count`. -/
def St.withCnt (s : St) : Player → Nat → St
  | .X, v => { s with cntX := v }
  | .O, v => { s with cntO := v }

instance : DecidableEq Board := fun b1 b2 =>
  decidable_of_iff (∀ i j, b1 i j = b2 i j)
    ⟨fun h => funext fun i => funext fun j => h i j,
     fun h i j => congrFun (congrFun h i) j⟩

instance : DecidableEq St := fun s1 s2 =>
  decidable_of_iff (s1.board = s2.board ∧ s1.cntX = s2.cntX ∧ s1.cntO = s2.cntO)
    ⟨fun h => by cases s1; cases s2; simp_all, fun h => by cases h; simp_all⟩

/-- The direction table `vector[NUM_VECTORS]`. -/
def vectors : List (Int × Int) :=
  [(-1,-1), (-1,0), (-1,1), (0,-1), (0,1), (1,-1), (1,0), (1,1)]

/-- The inner walk of `compute_effect` for one direction: starting at
`(r,c)`, repeatedly step by `(dr,dc)`.  Off-board or an empty cell
aborts the direction (`len = 0; break`, modelled as `none`); the
mover's marker ends it successfully (`some` of the collected opponent
cells, nearest first); any other cell is collected and the walk
continues.  The fuel bounds the walk; from an in-range start with a
nonzero direction the walk leaves the board within 8 steps, so fuel 8
is never exhausted where the function is used. -/
def scanLine (b : Board) (m : Char) (dr dc : Int) :
    Nat → Int → Int → Option (List (Fin 8 × Fin 8))
  | 0, _, _ => none
  | fuel+1, r, c =>
    if h : 0 ≤ r + dr ∧ r + dr < 8 ∧ 0 ≤ c + dc ∧ c + dc < 8 then
      if b ⟨(r + dr).toNat, by omega⟩ ⟨(c + dc).toNat, by omega⟩ = ' ' then none
      else if b ⟨(r + dr).toNat, by omega⟩ ⟨(c + dc).toNat, by omega⟩ = m then
        some []
      else
        (scanLine b m dr dc fuel (r + dr) (c + dc)).map
          fun l => (⟨(r + dr).toNat, by omega⟩, ⟨(c + dc).toNat, by omega⟩) :: l
    else none

/-- The flip list one direction contributes (`line_change[0..len)`). -/
def lineFlips (b : Board) (m : Char) (r c : Fin 8) (d : Int × Int) :
    List (Fin 8 × Fin 8) :=
  (scanLine b m d.1 d.2 8 (r : Int) (c : Int)).getD []

/-- `line_heur_total` for a successful direction: the summed heuristic
weights of the collected cells. -/
def lineScore (l : List (Fin 8 × Fin 8)) : Nat :=
  (l.map fun q => h_func q.1 q.2).sum

/-- Write the mover's marker to every cell of `l`
(`*(line_change[j]) = player->marker`). -/
def applyFlips (b : Board) (m : Char) (l : List (Fin 8 × Fin 8)) : Board :=
  l.foldl (fun bb q => setCell bb q.1 q.2 m) b

/-- Accumulator of the direction loop in `compute_effect`: the board
(flips are written direction by direction), `heur_total`, and
`changes[0..num_changed)`. -/
structure DirAcc where
  board : Board
  heur : Nat
  changes : List (Fin 8 × Fin 8)

/-- One iteration of the direction loop of `compute_effect`: when the
walk collected at least one cell (`len > 0`), flip the collected cells,
add the direction's heuristic total, and append to `changes`. -/
def dirStep (m : Char) (r c : Fin 8) (acc : DirAcc) (d : Int × Int) : DirAcc :=
  if 0 < (lineFlips acc.board m r c d).length then
    { board := applyFlips acc.board m (lineFlips acc.board m r c d)
      heur := acc.heur + lineScore (lineFlips acc.board m r c d)
      changes := acc.changes ++ lineFlips acc.board m r c d }
  else acc

/-- The direction loop of `compute_effect` over the 8 vectors. -/
def dirsFold (b : Board) (m : Char) (row col : Fin 8) : DirAcc :=
  vectors.foldl (dirStep m row col) ⟨b, 0, []⟩

/-- `compute_effect(row, col, player, changes, &num_changed)`: returns
the mutated state, `heur_total`, and the change list.  When no cell
changed, the C function has performed no store at all, so the entry
state is returned unchanged; otherwise the marker is placed, the
mover's count grows by `num_changed + 1` and the opponent's count
shrinks by `num_changed` (unsigned arithmetic). -/
def compute_effect (s : St) (p : Player) (row col : Fin 8) :
    St × Nat × List (Fin 8 × Fin 8) :=
  if 0 < (dirsFold s.board p.marker row col).changes.length then
    ( { (s.withCnt p
          ((s.cnt p + ((dirsFold s.board p.marker row col).changes.length + 1)) %
            UINT_MOD)).withCnt
          p.opponent
          ((s.cnt p.opponent +
            (UINT_MOD - (dirsFold s.board p.marker row col).changes.length % UINT_MOD)) %
            UINT_MOD) with
        board := setCell (dirsFold s.board p.marker row col).board row col p.marker },
      (dirsFold s.board p.marker row col).heur + h_func row col,
      (dirsFold s.board p.marker row col).changes )
  else (s, (dirsFold s.board p.marker row col).heur,
    (dirsFold s.board p.marker row col).changes)

/-- The inline undo in `best_move` (after a trial move):
`board[i][j] = ' '`, `player->count -= num_changes + 1`,
`player->opponent->count += num_changes`, and every changed cell is
set back to the opponent's marker. -/
def undoMove (s : St) (p : Player) (row col : Fin 8)
    (changes : List (Fin 8 × Fin 8)) : St :=
  { (s.withCnt p
      ((s.cnt p + (UINT_MOD - (changes.length + 1) % UINT_MOD)) % UINT_MOD)).withCnt
      p.opponent ((s.cnt p.opponent + changes.length) % UINT_MOD) with
    board := applyFlips (setCell s.board row col ' ') p.opponent.marker changes }

/-- The row-major cell order of the double loop in `best_move`. -/
def allCells : List (Fin 8 × Fin 8) :=
  (List.finRange 8).flatMap fun i => (List.finRange 8).map fun j => (i, j)

/-- The score/candidate bookkeeping after a trial move with net score
`e` against the best score `maxE` so far: a strict improvement
(`effect > max_effect`) discards the old candidates; a score equal to
the updated maximum records the move (`best_moves[num_best_moves++]`).
Returns the new `max_effect` and candidate list. -/
def candsUpd (ij : Fin 8 × Fin 8) (e maxE : Int)
    (cands : List (Fin 8 × Fin 8)) : Int × List (Fin 8 × Fin 8) :=
  ( if maxE < e then e else maxE,
    if e = (if maxE < e then e else maxE) then
      (if maxE < e then [] else cands) ++ [ij]
    else (if maxE < e then [] else cands) )

/-- One iteration of `best_move`'s cell loop, parameterized by the
child evaluator `step` (which, given the post-apply state, the move's
own effect `e0`, and the current `max_effect`, performs the recursive
call when applicable and returns the state it left behind together
with the net score).  Returns the loop state after the cell (the board
restored by the undo for a trialled move) and the `done` flag of the
alpha-beta cutoff `ply > 1 && prev_move_val - effect < best_sibling`
(tested inside `effect > max_effect`). -/
def bmCell (step : St → Nat → Int → St × Int) (p : Player) (ply : Nat)
    (prev bs : Int) (ij : Fin 8 × Fin 8) (s : St) (maxE : Int)
    (cands : List (Fin 8 × Fin 8)) :
    (St × Int × List (Fin 8 × Fin 8)) × Bool :=
  if s.board ij.1 ij.2 ≠ ' ' then ((s, maxE, cands), false)
  else if (compute_effect s p ij.1 ij.2).2.2.length = 0 then
    (((compute_effect s p ij.1 ij.2).1, maxE, cands), false)
  else
    ( ( undoMove (step (compute_effect s p ij.1 ij.2).1
          (compute_effect s p ij.1 ij.2).2.1 maxE).1 p ij.1 ij.2
          (compute_effect s p ij.1 ij.2).2.2,
        candsUpd ij (step (compute_effect s p ij.1 ij.2).1
          (compute_effect s p ij.1 ij.2).2.1 maxE).2 maxE cands ),
      decide (1 < ply ∧
        prev - (step (compute_effect s p ij.1 ij.2).1
          (compute_effect s p ij.1 ij.2).2.1 maxE).2 < bs ∧
        maxE < (step (compute_effect s p ij.1 ij.2).1
          (compute_effect s p ij.1 ij.2).2.1 maxE).2) )

/-- The cell loop of `best_move`: cells in row-major order, loop state
`(board/counts, max_effect, best_moves)`; when a cell sets `done`, the
remaining cells are dropped. -/
def bmLoopGen (step : St → Nat → Int → St × Int) (p : Player) (ply : Nat)
    (prev bs : Int) :
    List (Fin 8 × Fin 8) → St → Int → List (Fin 8 × Fin 8) →
    St × Int × List (Fin 8 × Fin 8)
  | [], s, maxE, cands => (s, maxE, cands)
  | ij :: rest, s, maxE, cands =>
    if (bmCell step p ply prev bs ij s maxE cands).2 = true then
      (bmCell step p ply prev bs ij s maxE cands).1
    else
      bmLoopGen step p ply prev bs rest
        (bmCell step p ply prev bs ij s maxE cands).1.1
        (bmCell step p ply prev bs ij s maxE cands).1.2.1
        (bmCell step p ply prev bs ij s maxE cands).1.2.2

/-- The post-loop report of `best_move` (with a non-NULL `rtn_chain`,
as at every call site): when no candidate was recorded, the NULL chain
is reported and `max_effect` is overwritten with 0. -/
def bmResult (r : St × Int × List (Fin 8 × Fin 8)) :
    St × Int × List (Fin 8 × Fin 8) :=
  if r.2.2.length = 0 then (r.1, 0, []) else r

/-- The recursion of `best_move`, structurally on `max_ply - ply`
(`best_move` below instantiates `fuel := mp - ply`, and the recursive
call keeps this in sync).  In the `fuel = 0` case `ply ≥ max_ply`
holds at every synced call, so the C guard
`ply < max_ply && counts < BOARD_AREA` is false and the net score of a
trial is the move's own effect; the `fuel + 1` case tests the guard
exactly as the C code does and recurses for the opponent with
`prev_move_val := effect`, `best_sibling := max_effect`, subtracting
the child's score. -/
def bmAux (mp : Nat) :
    Nat → Player → Nat → St → Int → Int → St × Int × List (Fin 8 × Fin 8)
  | 0, p, ply, s, prev, bs =>
    bmResult (bmLoopGen (fun s1 e0 _ => (s1, (e0 : Int))) p ply prev bs
      allCells s INIT_MAX_EFFECT [])
  | fuel+1, p, ply, s, prev, bs =>
    bmResult (bmLoopGen (fun s1 e0 maxE =>
      if ply < mp ∧ (s1.cnt p + s1.cnt p.opponent) % UINT_MOD < 64 then
        ((bmAux mp fuel p.opponent (ply + 1) s1 (e0 : Int) maxE).1,
         (e0 : Int) - (bmAux mp fuel p.opponent (ply + 1) s1 (e0 : Int) maxE).2.1)
      else (s1, (e0 : Int))) p ply prev bs allCells s INIT_MAX_EFFECT [])

/-- `best_move(rtn_chain, player, ply, max_ply, prev_move_val,
best_sibling)`: the state it leaves behind, the returned score, and
the recorded best-move candidates (empty for the NULL chain). -/
def best_move (s : St) (p : Player) (ply mp : Nat) (prev bs : Int) :
    St × Int × List (Fin 8 × Fin 8) :=
  bmAux mp (mp - ply) p ply s prev bs

/-- The child evaluator used by `bmAux` at `fuel + 1`, as a named
function. -/
def bmStep (p : Player) (mp fuel ply : Nat) : St → Nat → Int → St × Int :=
  fun s1 e0 maxE =>
    if ply < mp ∧ (s1.cnt p + s1.cnt p.opponent) % UINT_MOD < 64 then
      ((bmAux mp fuel p.opponent (ply + 1) s1 (e0 : Int) maxE).1,
       (e0 : Int) - (bmAux mp fuel p.opponent (ply + 1) s1 (e0 : Int) maxE).2.1)
    else (s1, (e0 : Int))

/-- The leaf evaluator (no recursion): the net score is the move's own
effect. -/
def leafStep : St → Nat → Int → St × Int := fun s1 e0 _ => (s1, (e0 : Int))

theorem bmAux_zero (p : Player) (mp ply : Nat) (s : St) (prev bs : Int) :
    bmAux mp 0 p ply s prev bs =
      bmResult (bmLoopGen leafStep p ply prev bs allCells s
        INIT_MAX_EFFECT []) := rfl

theorem bmAux_succ (p : Player) (mp fuel ply : Nat) (s : St) (prev bs : Int) :
    bmAux mp (fuel + 1) p ply s prev bs =
      bmResult (bmLoopGen (bmStep p mp fuel ply) p ply prev bs allCells s
        INIT_MAX_EFFECT []) := rfl

/-! ### The pruning-free reference search -/

/-- `max_effect` / `num_best_moves` bookkeeping of the reference
search (identical comparisons to `candsUpd`, counting instead of
collecting). -/
def scoreUpd (e maxE : Int) (nb : Nat) : Int × Nat :=
  ( if maxE < e then e else maxE,
    if e = (if maxE < e then e else maxE) then
      (if maxE < e then 0 else nb) + 1
    else (if maxE < e then 0 else nb) )

/-- The cell loop of the pruning-free reference: the same loop as
`bmLoopGen` with the alpha-beta cutoff removed, written in the pure
undo-respecting form (every iteration starts from the entry state `s`,
which the imperative loop restores by undoing). -/
def mmLoopGen (step : St → Nat → Int) (p : Player) (s : St) :
    List (Fin 8 × Fin 8) → Int → Nat → Int × Nat
  | [], maxE, nb => (maxE, nb)
  | ij :: rest, maxE, nb =>
    if s.board ij.1 ij.2 ≠ ' ' then mmLoopGen step p s rest maxE nb
    else if (compute_effect s p ij.1 ij.2).2.2.length = 0 then
      mmLoopGen step p s rest maxE nb
    else
      mmLoopGen step p s rest
        (scoreUpd (step (compute_effect s p ij.1 ij.2).1
          (compute_effect s p ij.1 ij.2).2.1) maxE nb).1
        (scoreUpd (step (compute_effect s p ij.1 ij.2).1
          (compute_effect s p ij.1 ij.2).2.1) maxE nb).2

/-- The post-loop report of the reference search: score 0 when no
move was recorded. -/
def mmResult (r : Int × Nat) : Int := if r.2 = 0 then 0 else r.1

/-- The recursion of the pruning-free reference, structurally on
`max_ply - ply` exactly as `bmAux`. -/
def mmAux (mp : Nat) : Nat → Player → Nat → St → Int
  | 0, p, ply, s =>
    mmResult (mmLoopGen (fun _ e0 => (e0 : Int)) p s allCells
      INIT_MAX_EFFECT 0)
  | fuel+1, p, ply, s =>
    mmResult (mmLoopGen (fun s1 e0 =>
      if ply < mp ∧ (s1.cnt p + s1.cnt p.opponent) % UINT_MOD < 64 then
        (e0 : Int) - mmAux mp fuel p.opponent (ply + 1) s1
      else (e0 : Int)) p s allCells INIT_MAX_EFFECT 0)

/-- The unpruned full minimax reference: `best_move` with the
alpha-beta cutoff disabled (it no longer needs `prev_move_val` or
`best_sibling`).  Returns the score only. -/
def minimax_noprune (s : St) (p : Player) (ply mp : Nat) : Int :=
  mmAux mp (mp - ply) p ply s

/-- The child evaluator of `mmAux` at `fuel + 1`, named. -/
def mmStep (p : Player) (mp fuel ply : Nat) : St → Nat → Int :=
  fun s1 e0 =>
    if ply < mp ∧ (s1.cnt p + s1.cnt p.opponent) % UINT_MOD < 64 then
      (e0 : Int) - mmAux mp fuel p.opponent (ply + 1) s1
    else (e0 : Int)

/-- The leaf evaluator of the reference. -/
def mmLeafStep : St → Nat → Int := fun _ e0 => (e0 : Int)

theorem mmAux_zero (p : Player) (mp ply : Nat) (s : St) :
    mmAux mp 0 p ply s =
      mmResult (mmLoopGen mmLeafStep p s allCells INIT_MAX_EFFECT 0) := rfl

theorem mmAux_succ (p : Player) (mp fuel ply : Nat) (s : St) :
    mmAux mp (fuel + 1) p ply s =
      mmResult (mmLoopGen (mmStep p mp fuel ply) p s allCells
        INIT_MAX_EFFECT 0) := rfl


/-! ### The ray of a direction, and the scan-line characterization -/

/-- The `k`-th cell outward from `(r,c)` in direction `d`, as a board
coordinate when it is on the board. -/
def rayQ (r c : Int) (d : Int × Int) (k : Nat) : Option (Fin 8 × Fin 8) :=
  if h : 0 ≤ r + k * d.1 ∧ r + k * d.1 < 8 ∧ 0 ≤ c + k * d.2 ∧ c + k * d.2 < 8 then
    some (⟨(r + k * d.1).toNat, by omega⟩, ⟨(c + k * d.2).toNat, by omega⟩)
  else none

theorem rayQ_step (r c : Int) (d : Int × Int) (k : Nat) :
    rayQ (r + d.1) (c + d.2) d k = rayQ r c d (k + 1) := by
  have h1 : r + d.1 + (k : Int) * d.1 = r + ((k : Nat) + 1 : Nat) * d.1 := by
    push_cast; ring
  have h2 : c + d.2 + (k : Int) * d.2 = c + ((k : Nat) + 1 : Nat) * d.2 := by
    push_cast; ring
  simp only [rayQ, h1, h2]

theorem rayQ_some_iff (r c : Int) (d : Int × Int) (k : Nat) (q : Fin 8 × Fin 8) :
    rayQ r c d k = some q ↔
      (q.1 : Int) = r + k * d.1 ∧ (q.2 : Int) = c + k * d.2 := by
  constructor
  · intro h
    simp only [rayQ] at h
    split at h
    · rename_i hin
      rw [Option.some_inj] at h
      subst h
      constructor <;> simp <;> omega
    · exact absurd h (by simp)
  · rintro ⟨h1, h2⟩
    obtain ⟨q1, q2⟩ := q
    have hb1 := q1.isLt
    have hb2 := q2.isLt
    simp only at h1 h2
    have hin : 0 ≤ r + (k : Int) * d.1 ∧ r + (k : Int) * d.1 < 8 ∧
        0 ≤ c + (k : Int) * d.2 ∧ c + (k : Int) * d.2 < 8 := by omega
    simp only [rayQ]
    rw [dif_pos hin, Option.some_inj, Prod.mk.injEq, Fin.ext_iff, Fin.ext_iff]
    simp only []
    omega

/-- Success of `scanLine` characterized: the collected cells sit at ray
positions `1..len` and hold neither `' '` nor the mover's marker, and
the walk was ended by the mover's marker at ray position `len + 1`. -/
theorem scanLine_some_spec (b : Board) (m : Char) (d : Int × Int) :
    ∀ (fuel : Nat) (r c : Int) (l : List (Fin 8 × Fin 8)),
      scanLine b m d.1 d.2 fuel r c = some l →
      (∀ k (hk : k < l.length),
          rayQ r c d (k + 1) = some (l.get ⟨k, hk⟩) ∧
          b (l.get ⟨k, hk⟩).1 (l.get ⟨k, hk⟩).2 ≠ ' ' ∧
          b (l.get ⟨k, hk⟩).1 (l.get ⟨k, hk⟩).2 ≠ m) ∧
      ∃ q, rayQ r c d (l.length + 1) = some q ∧ b q.1 q.2 = m := by
  intro fuel
  induction fuel with
  | zero => intro r c l h; simp [scanLine] at h
  | succ fuel ih =>
    intro r c l h
    rw [scanLine] at h
    split at h
    · rename_i hin
      have hq1ray : rayQ r c d 1 =
          some (⟨(r + d.1).toNat, by omega⟩, ⟨(c + d.2).toNat, by omega⟩) := by
        rw [rayQ_some_iff]
        constructor <;> simp <;> omega
      split at h
      · exact absurd h (by simp)
      · split at h
        · rename_i hsp hm
          rw [Option.some_inj] at h
          subst h
          exact ⟨by simp, _, by simpa using hq1ray, hm⟩
        · rename_i hsp hm
          rw [Option.map_eq_some'] at h
          obtain ⟨l', hl', rfl⟩ := h
          obtain ⟨hcells, qT, hqT, hqTm⟩ := ih _ _ _ hl'
          constructor
          · intro k hk
            match k, hk with
            | 0, hk => exact ⟨by simpa using hq1ray, hsp, hm⟩
            | k + 1, hk =>
              have hk' : k < l'.length := by simpa using hk
              have := hcells k hk'
              exact ⟨by rw [← rayQ_step]; exact this.1, this.2⟩
          · refine ⟨qT, ?_, hqTm⟩
            rw [← rayQ_step]
            simpa using hqT
    · exact absurd h (by simp)

/-- Converse: a contiguous in-range run of non-empty, non-mover cells
ended by the mover's marker makes `scanLine` succeed with exactly that
run length. -/
theorem scanLine_of_run (b : Board) (m : Char) (d : Int × Int) (hm : m ≠ ' ') :
    ∀ (n fuel : Nat) (r c : Int), n + 1 ≤ fuel →
      (∀ k, 1 ≤ k → k ≤ n → ∃ q, rayQ r c d k = some q ∧
          b q.1 q.2 ≠ ' ' ∧ b q.1 q.2 ≠ m) →
      (∃ q, rayQ r c d (n + 1) = some q ∧ b q.1 q.2 = m) →
      ∃ l, scanLine b m d.1 d.2 fuel r c = some l ∧ l.length = n := by
  intro n
  induction n with
  | zero =>
    intro fuel r c hfuel hrun hterm
    obtain ⟨q, hq, hqm⟩ := hterm
    rw [rayQ_some_iff] at hq
    obtain ⟨fuel, rfl⟩ : ∃ f, fuel = f + 1 := ⟨fuel - 1, by omega⟩
    have hb1 := q.1.isLt
    have hb2 := q.2.isLt
    have hq1 : (q.1 : Int) = r + d.1 := by rw [hq.1]; push_cast; ring
    have hq2 : (q.2 : Int) = c + d.2 := by rw [hq.2]; push_cast; ring
    have hin : 0 ≤ r + d.1 ∧ r + d.1 < 8 ∧ 0 ≤ c + d.2 ∧ c + d.2 < 8 := by
      omega
    have heq1 : (⟨(r + d.1).toNat, by omega⟩ : Fin 8) = q.1 := by
      apply Fin.ext
      show (r + d.1).toNat = (q.1 : Nat)
      omega
    have heq2 : (⟨(c + d.2).toNat, by omega⟩ : Fin 8) = q.2 := by
      apply Fin.ext
      show (c + d.2).toNat = (q.2 : Nat)
      omega
    rw [scanLine, dif_pos hin]
    rw [heq1, heq2, hqm]
    rw [if_neg hm, if_pos rfl]
    exact ⟨[], rfl, rfl⟩
  | succ n ih =>
    intro fuel r c hfuel hrun hterm
    obtain ⟨fuel, rfl⟩ : ∃ f, fuel = f + 1 := ⟨fuel - 1, by omega⟩
    obtain ⟨q, hq, hqsp, hqm⟩ := hrun 1 le_rfl (by omega)
    rw [rayQ_some_iff] at hq
    have hb1 := q.1.isLt
    have hb2 := q.2.isLt
    have hq1 : (q.1 : Int) = r + d.1 := by rw [hq.1]; push_cast; ring
    have hq2 : (q.2 : Int) = c + d.2 := by rw [hq.2]; push_cast; ring
    have hin : 0 ≤ r + d.1 ∧ r + d.1 < 8 ∧ 0 ≤ c + d.2 ∧ c + d.2 < 8 := by
      omega
    have heq1 : (⟨(r + d.1).toNat, by omega⟩ : Fin 8) = q.1 := by
      apply Fin.ext
      show (r + d.1).toNat = (q.1 : Nat)
      omega
    have heq2 : (⟨(c + d.2).toNat, by omega⟩ : Fin 8) = q.2 := by
      apply Fin.ext
      show (c + d.2).toNat = (q.2 : Nat)
      omega
    rw [scanLine, dif_pos hin, heq1, heq2, if_neg hqsp, if_neg hqm]
    obtain ⟨l', hl', hlen⟩ := ih fuel (r + d.1) (c + d.2) (by omega)
      (fun k hk1 hk2 => by
        rw [rayQ_step]
        exact hrun (k + 1) (by omega) (by omega))
      (by rw [rayQ_step]; exact hterm)
    rw [hl']
    exact ⟨_, rfl, by simpa using hlen⟩

/-- The 8 direction vectors have components in `{-1,0,1}` and are
nonzero. -/
theorem vectors_prop : ∀ d ∈ vectors,
    (d.1 = -1 ∨ d.1 = 0 ∨ d.1 = 1) ∧ (d.2 = -1 ∨ d.2 = 0 ∨ d.2 = 1) ∧
    ¬(d.1 = 0 ∧ d.2 = 0) := by decide

/-- On-board ray positions in one of the 8 directions lie within 7
steps of the origin cell. -/
theorem rayQ_bound (d : Int × Int) (hd : d ∈ vectors) (r c : Fin 8) (k : Nat)
    (q : Fin 8 × Fin 8) (hq : rayQ (r : Int) (c : Int) d k = some q) : k ≤ 7 := by
  rw [rayQ_some_iff] at hq
  obtain ⟨h1, h2⟩ := hq
  obtain ⟨hd1, hd2, hnz⟩ := vectors_prop d hd
  have hb1 := q.1.isLt
  have hb2 := q.2.isLt
  have hr := r.isLt
  have hc := c.isLt
  rcases hd1 with h | h | h <;> rcases hd2 with g | g | g <;>
    rw [h] at h1 <;> rw [g] at h2 <;> omega

/-- Distinct (direction, step) pairs with step at least 1 reach
distinct cells: rays from one origin do not meet, and a single ray
never revisits a cell. -/
theorem rayQ_inj (d w : Int × Int) (hd : d ∈ vectors) (hw : w ∈ vectors)
    (r c : Int) (k k' : Nat) (hk : 1 ≤ k) (hk' : 1 ≤ k')
    (hne : ¬(d = w ∧ k = k')) (q q' : Fin 8 × Fin 8)
    (hq : rayQ r c d k = some q) (hq' : rayQ r c w k' = some q') : q ≠ q' := by
  intro heq
  subst heq
  rw [rayQ_some_iff] at hq hq'
  apply hne
  have h1 : (k : Int) * d.1 = (k' : Int) * w.1 := by omega
  have h2 : (k : Int) * d.2 = (k' : Int) * w.2 := by omega
  clear hq hq'
  obtain ⟨hd1, hd2, hdnz⟩ := vectors_prop d hd
  obtain ⟨hw1, hw2, hwnz⟩ := vectors_prop w hw
  obtain ⟨dx, dy⟩ := d
  obtain ⟨wx, wy⟩ := w
  simp only at h1 h2 hd1 hd2 hdnz hw1 hw2 hwnz
  rw [Prod.mk.injEq]
  rcases hd1 with h | h | h <;> rcases hd2 with g | g | g <;>
    rcases hw1 with h' | h' | h' <;> rcases hw2 with g' | g' | g' <;>
    subst h <;> subst g <;> subst h' <;> subst g' <;>
    refine ⟨⟨by omega, by omega⟩, by omega⟩

/-- A ray cell at step at least 1 is never the origin cell. -/
theorem rayQ_ne_origin (d : Int × Int) (hd : d ∈ vectors) (r c : Fin 8)
    (k : Nat) (hk : 1 ≤ k) (q : Fin 8 × Fin 8)
    (hq : rayQ (r : Int) (c : Int) d k = some q) : q ≠ (r, c) := by
  intro heq
  rw [rayQ_some_iff] at hq
  obtain ⟨h1, h2⟩ := hq
  have e1 : (q.1 : Int) = (r : Int) := by rw [heq]
  have e2 : (q.2 : Int) = (c : Int) := by rw [heq]
  obtain ⟨hd1, hd2, hnz⟩ := vectors_prop d hd
  rcases hd1 with h | h | h <;> rcases hd2 with g | g | g <;>
    rw [h] at h1 <;> rw [g] at h2 <;> omega

/-- `scanLine` reads the board only along the ray: two boards agreeing
on the reachable ray cells scan identically. -/
theorem scanLine_congr (b b' : Board) (m : Char) (d : Int × Int) :
    ∀ (fuel : Nat) (r c : Int),
      (∀ k q, 1 ≤ k → k ≤ fuel → rayQ r c d k = some q →
        b' q.1 q.2 = b q.1 q.2) →
      scanLine b' m d.1 d.2 fuel r c = scanLine b m d.1 d.2 fuel r c := by
  intro fuel
  induction fuel with
  | zero => intro r c hag; rfl
  | succ fuel ih =>
    intro r c hag
    rw [scanLine, scanLine]
    split
    · rename_i hin
      have hq1 : rayQ r c d 1 =
          some (⟨(r + d.1).toNat, by omega⟩, ⟨(c + d.2).toNat, by omega⟩) := by
        rw [rayQ_some_iff]
        constructor <;> simp <;> omega
      have hcell := hag 1 _ le_rfl (by omega) hq1
      simp only at hcell
      rw [hcell]
      rw [ih (r + d.1) (c + d.2) (fun k q hk1 hk2 hq => by
        rw [rayQ_step] at hq
        exact hag (k + 1) q (by omega) (by omega) hq)]
    · rfl

/-! ### Helper lemmas on the state and on flip application -/

theorem Player.opponent_ne (p : Player) : p.opponent ≠ p := by
  cases p <;> decide

theorem St.board_withCnt (s : St) (p : Player) (v : Nat) :
    (s.withCnt p v).board = s.board := by
  cases p <;> rfl

theorem St.cnt_withCnt_same (s : St) (p : Player) (v : Nat) :
    (s.withCnt p v).cnt p = v := by
  cases p <;> rfl

theorem St.cnt_withCnt_other (s : St) (p q : Player) (v : Nat) (h : q ≠ p) :
    (s.withCnt p v).cnt q = s.cnt q := by
  cases p <;> cases q <;> first | rfl | exact absurd rfl h

theorem applyFlips_append (b : Board) (m : Char) (l1 l2 : List (Fin 8 × Fin 8)) :
    applyFlips b m (l1 ++ l2) = applyFlips (applyFlips b m l1) m l2 :=
  List.foldl_append ..

theorem applyFlips_not_mem (m : Char) :
    ∀ (l : List (Fin 8 × Fin 8)) (b : Board) (q : Fin 8 × Fin 8), q ∉ l →
      applyFlips b m l q.1 q.2 = b q.1 q.2 := by
  intro l
  induction l with
  | nil => intro b q _; rfl
  | cons x xs ih =>
    intro b q hq
    rw [List.mem_cons, not_or] at hq
    rw [applyFlips, List.foldl_cons, ← applyFlips, ih _ _ hq.2, setCell]
    have : ¬(q.1 = x.1 ∧ q.2 = x.2) := by
      intro hc
      exact hq.1 (Prod.ext hc.1 hc.2)
    rw [if_neg this]

theorem applyFlips_mem (m : Char) :
    ∀ (l : List (Fin 8 × Fin 8)) (b : Board) (q : Fin 8 × Fin 8), q ∈ l →
      applyFlips b m l q.1 q.2 = m := by
  intro l
  induction l with
  | nil => intro b q hq; cases hq
  | cons x xs ih =>
    intro b q hq
    by_cases hx : q ∈ xs
    · exact ih _ _ hx
    · have hqx : q = x := by
        rcases List.mem_cons.mp hq with h | h
        · exact h
        · exact absurd h hx
      subst hqx
      rw [applyFlips, List.foldl_cons, ← applyFlips, applyFlips_not_mem m _ _ _ hx,
        setCell, if_pos ⟨rfl, rfl⟩]

theorem lineScore_append (l1 l2 : List (Fin 8 × Fin 8)) :
    lineScore (l1 ++ l2) = lineScore l1 + lineScore l2 := by
  simp [lineScore]

theorem vectors_nodup : vectors.Nodup := by decide

/-! ### The flip list of `compute_effect`, per direction -/

/-- The flips of a move described direction by direction against the
pre-move board. -/
def flipsSpec (b : Board) (m : Char) (r c : Fin 8) : List (Fin 8 × Fin 8) :=
  (vectors.map fun d => lineFlips b m r c d).flatten

theorem lineFlips_eq_cases (b : Board) (m : Char) (r c : Fin 8) (d : Int × Int) :
    lineFlips b m r c d = [] ∨
    ∃ l, scanLine b m d.1 d.2 8 (r : Int) (c : Int) = some l ∧
      lineFlips b m r c d = l := by
  unfold lineFlips
  rcases hsc : scanLine b m d.1 d.2 8 (r : Int) (c : Int) with _ | l
  · left; rfl
  · right; exact ⟨l, rfl, rfl⟩

theorem lineFlips_mem_ray (b : Board) (m : Char) (r c : Fin 8) (d : Int × Int)
    (q : Fin 8 × Fin 8) (hq : q ∈ lineFlips b m r c d) :
    ∃ k, 1 ≤ k ∧ rayQ (r : Int) (c : Int) d k = some q ∧
      b q.1 q.2 ≠ ' ' ∧ b q.1 q.2 ≠ m := by
  rcases lineFlips_eq_cases b m r c d with h | ⟨l, hsc, h⟩
  · rw [h] at hq
    cases hq
  · rw [h] at hq
    obtain ⟨hcells, _⟩ := scanLine_some_spec b m d 8 _ _ l hsc
    rw [List.mem_iff_get] at hq
    obtain ⟨⟨k, hk⟩, rfl⟩ := hq
    obtain ⟨h1, h2, h3⟩ := hcells k hk
    exact ⟨k + 1, by omega, h1, h2, h3⟩

theorem lineFlips_nodup (b : Board) (m : Char) (r c : Fin 8) (d : Int × Int)
    (hd : d ∈ vectors) : (lineFlips b m r c d).Nodup := by
  rcases lineFlips_eq_cases b m r c d with h | ⟨l, hsc, h⟩
  · rw [h]; exact List.nodup_nil
  · rw [h]
    obtain ⟨hcells, _⟩ := scanLine_some_spec b m d 8 _ _ l hsc
    rw [List.nodup_iff_injective_get]
    intro ⟨i, hi⟩ ⟨j, hj⟩ hij
    by_contra hne
    have hij' : i ≠ j := by
      intro hc
      exact hne (by simp [hc])
    obtain ⟨hqi, _, _⟩ := hcells i hi
    obtain ⟨hqj, _, _⟩ := hcells j hj
    exact rayQ_inj d d hd hd _ _ (i + 1) (j + 1) (by omega) (by omega)
      (by intro hc; exact hij' (by omega)) _ _ hqi hqj (by rw [hij])

theorem flipsSpec_nodup (b : Board) (m : Char) (r c : Fin 8) :
    (flipsSpec b m r c).Nodup := by
  rw [flipsSpec, List.nodup_flatten]
  constructor
  · intro l hl
    rw [List.mem_map] at hl
    obtain ⟨d, hd, rfl⟩ := hl
    exact lineFlips_nodup b m r c d hd
  · rw [List.pairwise_map]
    have hv := vectors_nodup
    refine List.Pairwise.imp_of_mem ?_ hv
    intro d w hd hw hne q hqd hqw
    obtain ⟨k, hk, hray, _, _⟩ := lineFlips_mem_ray b m r c d q hqd
    obtain ⟨k', hk', hray', _, _⟩ := lineFlips_mem_ray b m r c w q hqw
    exact rayQ_inj d w hd hw _ _ k k' hk hk'
      (by intro h; exact hne h.1) q q hray hray' rfl

theorem flipsSpec_mem_ray (b : Board) (m : Char) (r c : Fin 8)
    (q : Fin 8 × Fin 8) (hq : q ∈ flipsSpec b m r c) :
    ∃ d ∈ vectors, ∃ k, 1 ≤ k ∧ rayQ (r : Int) (c : Int) d k = some q ∧
      b q.1 q.2 ≠ ' ' ∧ b q.1 q.2 ≠ m := by
  rw [flipsSpec, List.mem_flatten] at hq
  obtain ⟨l, hl, hql⟩ := hq
  rw [List.mem_map] at hl
  obtain ⟨d, hd, rfl⟩ := hl
  obtain ⟨k, hk, h⟩ := lineFlips_mem_ray b m r c d q hql
  exact ⟨d, hd, k, hk, h⟩

theorem flipsSpec_ne_origin (b : Board) (m : Char) (r c : Fin 8)
    (q : Fin 8 × Fin 8) (hq : q ∈ flipsSpec b m r c) : q ≠ (r, c) := by
  obtain ⟨d, hd, k, hk, hray, _, _⟩ := flipsSpec_mem_ray b m r c q hq
  exact rayQ_ne_origin d hd r c k hk q hray

theorem flipsSpec_orig (b : Board) (m : Char) (r c : Fin 8)
    (q : Fin 8 × Fin 8) (hq : q ∈ flipsSpec b m r c) :
    b q.1 q.2 ≠ ' ' ∧ b q.1 q.2 ≠ m := by
  obtain ⟨_, _, _, _, _, h⟩ := flipsSpec_mem_ray b m r c q hq
  exact h

/-- Invariant of the direction loop: although the C code flips each
direction's cells before scanning the next direction, the scans are
unaffected (rays from one origin are pairwise disjoint), so the fold
computes exactly the per-direction flips of the pre-move board. -/
theorem dirs_fold_spec (b : Board) (m : Char) (r c : Fin 8) :
    ∀ (ds processed : List (Int × Int)) (acc : DirAcc),
      vectors = processed ++ ds →
      acc.changes = (processed.map fun d => lineFlips b m r c d).flatten →
      acc.board = applyFlips b m acc.changes →
      acc.heur = lineScore acc.changes →
      (ds.foldl (dirStep m r c) acc).changes = flipsSpec b m r c ∧
      (ds.foldl (dirStep m r c) acc).board =
        applyFlips b m (flipsSpec b m r c) ∧
      (ds.foldl (dirStep m r c) acc).heur = lineScore (flipsSpec b m r c) := by
  intro ds
  induction ds with
  | nil =>
    intro processed acc happ hch hbd hhr
    rw [List.append_nil] at happ
    subst happ
    rw [List.foldl_nil]
    exact ⟨hch, by rw [hbd, hch]; rfl, by rw [hhr, hch]; rfl⟩
  | cons d ds ih =>
    intro processed acc happ hch hbd hhr
    have hdv : d ∈ vectors := by rw [happ]; simp
    have hdnp : d ∉ processed := by
      have hnd := vectors_nodup
      rw [happ, List.nodup_append] at hnd
      intro hmem
      exact hnd.2.2 hmem (by simp)
    have hkey : lineFlips acc.board m r c d = lineFlips b m r c d := by
      unfold lineFlips
      rw [scanLine_congr b acc.board m d 8 (r : Int) (c : Int)]
      intro k q hk1 hk8 hray
      rw [hbd]
      apply applyFlips_not_mem
      intro hqch
      rw [hch, List.mem_flatten] at hqch
      obtain ⟨l, hl, hql⟩ := hqch
      rw [List.mem_map] at hl
      obtain ⟨w, hw, rfl⟩ := hl
      obtain ⟨k', hk', hray', _, _⟩ := lineFlips_mem_ray b m r c w q hql
      have hwv : w ∈ vectors := by rw [happ]; exact List.mem_append_left _ hw
      refine rayQ_inj d w hdv hwv _ _ k k' hk1 hk' ?_ q q hray hray' rfl
      intro hdw
      exact hdnp (hdw.1 ▸ hw)
    rw [List.foldl_cons]
    apply ih (processed ++ [d])
    · rw [happ, List.append_assoc]; rfl
    · rw [dirStep, hkey]
      split
      · simp only [List.map_append, List.flatten_append, List.map_cons,
          List.map_nil, List.flatten_cons, List.flatten_nil, List.append_nil]
        rw [hch]
      · rename_i hlen
        have hnil : lineFlips b m r c d = [] := by
          cases hl : lineFlips b m r c d with
          | nil => rfl
          | cons x xs => rw [hl] at hlen; simp at hlen
        simp only [List.map_append, List.flatten_append, List.map_cons,
          List.map_nil, List.flatten_cons, List.flatten_nil, List.append_nil,
          hnil]
        rw [hch]
    · rw [dirStep, hkey]
      split
      · simp only
        rw [hch, hbd, ← applyFlips_append, ← hch]
      · rename_i hlen
        have hnil : lineFlips b m r c d = [] := by
          cases hl : lineFlips b m r c d with
          | nil => rfl
          | cons x xs => rw [hl] at hlen; simp at hlen
        rw [hbd]
    · rw [dirStep, hkey]
      split
      · simp only
        rw [hch, hhr, lineScore_append, ← hch]
      · exact hhr

theorem dirsFold_spec (b : Board) (m : Char) (row col : Fin 8) :
    (dirsFold b m row col).changes = flipsSpec b m row col ∧
    (dirsFold b m row col).board = applyFlips b m (flipsSpec b m row col) ∧
    (dirsFold b m row col).heur = lineScore (flipsSpec b m row col) :=
  dirs_fold_spec b m row col vectors [] ⟨b, 0, []⟩ rfl rfl rfl rfl

/-- `compute_effect` rewritten in terms of the per-direction flips of
the pre-move board. -/
theorem compute_effect_eq (s : St) (p : Player) (row col : Fin 8) :
    compute_effect s p row col =
    if 0 < (flipsSpec s.board p.marker row col).length then
      ( { (s.withCnt p
            ((s.cnt p + ((flipsSpec s.board p.marker row col).length + 1)) %
              UINT_MOD)).withCnt
            p.opponent
            ((s.cnt p.opponent +
              (UINT_MOD - (flipsSpec s.board p.marker row col).length % UINT_MOD)) %
              UINT_MOD) with
          board := setCell (applyFlips s.board p.marker
            (flipsSpec s.board p.marker row col)) row col p.marker },
        lineScore (flipsSpec s.board p.marker row col) + h_func row col,
        flipsSpec s.board p.marker row col )
    else (s, 0, []) := by
  obtain ⟨hc, hb, hh⟩ := dirsFold_spec s.board p.marker row col
  rw [compute_effect, hc, hb, hh]
  split
  · rfl
  · rename_i hlen
    have hnil : flipsSpec s.board p.marker row col = [] := by
      cases hl : flipsSpec s.board p.marker row col with
      | nil => rfl
      | cons x xs => rw [hl] at hlen; simp at hlen
    rw [hnil]
    rfl

theorem compute_effect_changes (s : St) (p : Player) (row col : Fin 8) :
    (compute_effect s p row col).2.2 = flipsSpec s.board p.marker row col := by
  rw [compute_effect_eq]
  split
  · rfl
  · rename_i hlen
    cases hl : flipsSpec s.board p.marker row col with
    | nil => rfl
    | cons x xs => rw [hl] at hlen; simp at hlen

theorem St.cnt_of_withBoard (s : St) (b : Board) (q : Player) :
    St.cnt { s with board := b } q = s.cnt q := by
  cases q <;> rfl

/-- The applied state after a move with at least one flip. -/
theorem compute_effect_pos_spec (s : St) (p : Player) (row col : Fin 8)
    (hpos : (flipsSpec s.board p.marker row col) ≠ []) :
    (compute_effect s p row col).1.board =
      setCell (applyFlips s.board p.marker (flipsSpec s.board p.marker row col))
        row col p.marker ∧
    (compute_effect s p row col).1.cnt p =
      (s.cnt p + ((flipsSpec s.board p.marker row col).length + 1)) % UINT_MOD ∧
    (compute_effect s p row col).1.cnt p.opponent =
      (s.cnt p.opponent +
        (UINT_MOD - (flipsSpec s.board p.marker row col).length % UINT_MOD)) %
        UINT_MOD ∧
    (compute_effect s p row col).2.1 =
      lineScore (flipsSpec s.board p.marker row col) + h_func row col := by
  have hlen : 0 < (flipsSpec s.board p.marker row col).length :=
    List.length_pos.mpr hpos
  rw [compute_effect_eq, if_pos hlen]
  refine ⟨rfl, ?_, ?_, rfl⟩
  · rw [St.cnt_of_withBoard, St.cnt_withCnt_other _ _ _ _ (Player.opponent_ne p).symm,
      St.cnt_withCnt_same]
  · rw [St.cnt_of_withBoard, St.cnt_withCnt_same]

/-- With no flip anywhere, `compute_effect` is the identity on the
state and reports score 0 and an empty change list. -/
theorem compute_effect_nil_spec (s : St) (p : Player) (row col : Fin 8)
    (hnil : flipsSpec s.board p.marker row col = []) :
    compute_effect s p row col = (s, 0, []) := by
  rw [compute_effect_eq, hnil]
  rfl

/-! ### Well-formed boards, counts consistent with the board -/

/-- Every cell holds one of the three cell states of the game. -/
def wellFormed (b : Board) : Prop :=
  ∀ i j, b i j = ' ' ∨ b i j = 'X' ∨ b i j = 'O'

instance (b : Board) : Decidable (wellFormed b) := by
  unfold wellFormed
  infer_instance

theorem Player.marker_cases (p : Player) :
    p.marker = 'X' ∨ p.marker = 'O' := by
  cases p
  · exact Or.inl rfl
  · exact Or.inr rfl

theorem Player.marker_ne_space (p : Player) : p.marker ≠ ' ' := by
  cases p <;> decide

/-- On a well-formed board a cell that is neither blank nor the
mover's marker holds the opponent's marker. -/
theorem opp_marker_of_ne (b : Board) (hWF : wellFormed b) (p : Player)
    (i j : Fin 8) (hsp : b i j ≠ ' ') (hm : b i j ≠ p.marker) :
    b i j = p.opponent.marker := by
  rcases hWF i j with h | h | h
  · exact absurd h hsp
  · cases p
    · exact absurd h hm
    · exact h
  · cases p
    · exact h
    · exact absurd h hm

/-- The number of cells holding marker `m`. -/
def countMarker (b : Board) (m : Char) : Nat :=
  (Finset.univ.filter fun q : Fin 8 × Fin 8 => b q.1 q.2 = m).card

/-- The players' stored counts agree with the board tallies
(the program's count invariant). -/
def consistent (s : St) : Prop :=
  s.cntX = countMarker s.board 'X' ∧ s.cntO = countMarker s.board 'O'

instance (s : St) : Decidable (consistent s) := by
  unfold consistent
  infer_instance

theorem consistent_cnt (s : St) (hc : consistent s) (p : Player) :
    s.cnt p = countMarker s.board p.marker := by
  cases p
  · exact hc.1
  · exact hc.2

theorem countMarker_le (b : Board) (m : Char) : countMarker b m ≤ 64 := by
  have h := Finset.card_filter_le (Finset.univ : Finset (Fin 8 × Fin 8))
    (fun q => b q.1 q.2 = m)
  simpa using h

/-- A duplicate-free list of cells all holding marker `m` is no longer
than the board's tally of `m`. -/
theorem length_le_countMarker (b : Board) (m : Char)
    (l : List (Fin 8 × Fin 8)) (hnd : l.Nodup)
    (hall : ∀ q ∈ l, b q.1 q.2 = m) : l.length ≤ countMarker b m := by
  have hsub : l.toFinset ⊆ Finset.univ.filter fun q : Fin 8 × Fin 8 =>
      b q.1 q.2 = m := by
    intro q hq
    rw [List.mem_toFinset] at hq
    rw [Finset.mem_filter]
    exact ⟨Finset.mem_univ q, hall q hq⟩
  have := Finset.card_le_card hsub
  rwa [List.toFinset_card_of_nodup hnd] at this

theorem wellFormed_setCell (b : Board) (r c : Fin 8) (ch : Char)
    (hWF : wellFormed b) (hch : ch = ' ' ∨ ch = 'X' ∨ ch = 'O') :
    wellFormed (setCell b r c ch) := by
  intro i j
  rw [setCell]
  split
  · exact hch
  · exact hWF i j

theorem wellFormed_applyFlips (m : Char) (hm : m = ' ' ∨ m = 'X' ∨ m = 'O') :
    ∀ (l : List (Fin 8 × Fin 8)) (b : Board), wellFormed b →
      wellFormed (applyFlips b m l) := by
  intro l
  induction l with
  | nil => intro b hWF; exact hWF
  | cons x xs ih =>
    intro b hWF
    exact ih _ (wellFormed_setCell b x.1 x.2 m hWF hm)

theorem marker_or (p : Player) :
    p.marker = ' ' ∨ p.marker = 'X' ∨ p.marker = 'O' :=
  Or.inr p.marker_cases

/-- `compute_effect` preserves well-formedness (it writes only the
mover's marker). -/
theorem compute_effect_WF (s : St) (p : Player) (row col : Fin 8)
    (hWF : wellFormed s.board) :
    wellFormed (compute_effect s p row col).1.board := by
  rw [compute_effect_eq]
  split
  · exact wellFormed_setCell _ row col p.marker
      (wellFormed_applyFlips p.marker (marker_or p) _ _ hWF) (marker_or p)
  · exact hWF

theorem UINT_MOD_pos : 0 < UINT_MOD := by decide

/-- `compute_effect` keeps both counters below the unsigned modulus. -/
theorem compute_effect_cnt_lt (s : St) (p : Player) (row col : Fin 8)
    (hX : s.cntX < UINT_MOD) (hO : s.cntO < UINT_MOD) :
    (compute_effect s p row col).1.cntX < UINT_MOD ∧
    (compute_effect s p row col).1.cntO < UINT_MOD := by
  rw [compute_effect_eq]
  split
  · cases p <;>
      exact ⟨Nat.mod_lt _ UINT_MOD_pos, Nat.mod_lt _ UINT_MOD_pos⟩
  · exact ⟨hX, hO⟩

/-- Each player's stored count is unchanged or rewritten modulo
`UINT_MOD`; in particular the upper bound is preserved. -/
theorem compute_effect_cnt_lt' (s : St) (p : Player) (row col : Fin 8)
    (hX : s.cntX < UINT_MOD) (hO : s.cntO < UINT_MOD) (q : Player) :
    (compute_effect s p row col).1.cnt q < UINT_MOD := by
  have h := compute_effect_cnt_lt s p row col hX hO
  cases q
  · exact h.1
  · exact h.2

/-! ### The apply/undo inverse law -/

theorem undoMove_board (s : St) (p : Player) (row col : Fin 8)
    (changes : List (Fin 8 × Fin 8)) :
    (undoMove s p row col changes).board =
      applyFlips (setCell s.board row col ' ') p.opponent.marker changes := rfl

theorem undoMove_cnt_mover (s : St) (p : Player) (row col : Fin 8)
    (changes : List (Fin 8 × Fin 8)) :
    (undoMove s p row col changes).cnt p =
      (s.cnt p + (UINT_MOD - (changes.length + 1) % UINT_MOD)) % UINT_MOD := by
  rw [undoMove, St.cnt_of_withBoard,
    St.cnt_withCnt_other _ _ _ _ (Player.opponent_ne p).symm, St.cnt_withCnt_same]

theorem undoMove_cnt_opp (s : St) (p : Player) (row col : Fin 8)
    (changes : List (Fin 8 × Fin 8)) :
    (undoMove s p row col changes).cnt p.opponent =
      (s.cnt p.opponent + changes.length) % UINT_MOD := by
  rw [undoMove, St.cnt_of_withBoard, St.cnt_withCnt_same]

theorem Player.eq_or_opp (q p : Player) : q = p ∨ q = p.opponent := by
  cases q <;> cases p <;> simp [Player.opponent]

theorem cnt_lt_of_bounds (s : St) (hX : s.cntX < UINT_MOD)
    (hO : s.cntO < UINT_MOD) (q : Player) : s.cnt q < UINT_MOD := by
  cases q
  · exact hX
  · exact hO

/-- Undoing an applied move (one with at least one flip: `best_move`
skips the undo for zero-change trials) restores the exact entry state:
the board because every flipped cell held the opponent's marker before
the move and the placed cell was blank, the counters by unsigned
modular arithmetic. -/
theorem apply_undo (s : St) (p : Player) (row col : Fin 8)
    (hWF : wellFormed s.board) (hEmpty : s.board row col = ' ')
    (hX : s.cntX < UINT_MOD) (hO : s.cntO < UINT_MOD)
    (hpos : flipsSpec s.board p.marker row col ≠ []) :
    undoMove (compute_effect s p row col).1 p row col
      (compute_effect s p row col).2.2 = s := by
  obtain ⟨hbd, hcp, hco, _⟩ := compute_effect_pos_spec s p row col hpos
  rw [compute_effect_changes]
  set F := flipsSpec s.board p.marker row col with hF
  set s' := (compute_effect s p row col).1 with hs'
  have hrcF : (row, col) ∉ F := by
    intro hmem
    exact flipsSpec_ne_origin s.board p.marker row col _ hmem rfl
  have hlenF : F.length ≤ 64 :=
    le_trans ((flipsSpec_nodup s.board p.marker row col).length_le_card)
      (by simp)
  have hboard : (undoMove s' p row col F).board = s.board := by
    rw [undoMove_board]
    funext i j
    by_cases hijF : (i, j) ∈ F
    · have h1 := applyFlips_mem p.opponent.marker F
        (setCell s'.board row col ' ') (i, j) hijF
      simp only at h1
      rw [h1]
      have horig := flipsSpec_orig s.board p.marker row col (i, j) (hF ▸ hijF)
      exact (opp_marker_of_ne s.board hWF p i j horig.1 horig.2).symm
    · have h1 := applyFlips_not_mem p.opponent.marker F
        (setCell s'.board row col ' ') (i, j) hijF
      simp only at h1
      rw [h1, setCell]
      split
      · rename_i hij
        rw [hij.1, hij.2, hEmpty]
      · rename_i hij
        rw [hbd, setCell]
        rw [if_neg hij]
        have h2 := applyFlips_not_mem p.marker F s.board (i, j) hijF
        simpa using h2
  have hcnt : ∀ q : Player, (undoMove s' p row col F).cnt q = s.cnt q := by
    intro q
    have hltp := cnt_lt_of_bounds s hX hO p
    have hlto := cnt_lt_of_bounds s hX hO p.opponent
    rcases Player.eq_or_opp q p with rfl | rfl
    · rw [undoMove_cnt_mover, hcp]
      simp only [UINT_MOD] at *
      omega
    · rw [undoMove_cnt_opp, hco]
      simp only [UINT_MOD] at *
      omega
  ext i j
  · rw [hboard]
  · exact hcnt Player.X
  · exact hcnt Player.O

/-! ### Case analysis of one cell of the search loop -/

theorem bmCell_occ (step : St → Nat → Int → St × Int) (p : Player) (ply : Nat)
    (prev bs : Int) (ij : Fin 8 × Fin 8) (s : St) (maxE : Int)
    (cands : List (Fin 8 × Fin 8)) (h : s.board ij.1 ij.2 ≠ ' ') :
    bmCell step p ply prev bs ij s maxE cands = ((s, maxE, cands), false) := by
  rw [bmCell, if_pos h]

theorem bmCell_zero (step : St → Nat → Int → St × Int) (p : Player) (ply : Nat)
    (prev bs : Int) (ij : Fin 8 × Fin 8) (s : St) (maxE : Int)
    (cands : List (Fin 8 × Fin 8)) (hsp : s.board ij.1 ij.2 = ' ')
    (hch : (compute_effect s p ij.1 ij.2).2.2.length = 0) :
    bmCell step p ply prev bs ij s maxE cands =
      (((compute_effect s p ij.1 ij.2).1, maxE, cands), false) := by
  rw [bmCell, if_neg (by simp [hsp]), if_pos hch]

theorem bmCell_move (step : St → Nat → Int → St × Int) (p : Player) (ply : Nat)
    (prev bs : Int) (ij : Fin 8 × Fin 8) (s : St) (maxE : Int)
    (cands : List (Fin 8 × Fin 8)) (hsp : s.board ij.1 ij.2 = ' ')
    (hch : ¬(compute_effect s p ij.1 ij.2).2.2.length = 0) :
    bmCell step p ply prev bs ij s maxE cands =
      ( ( undoMove (step (compute_effect s p ij.1 ij.2).1
            (compute_effect s p ij.1 ij.2).2.1 maxE).1 p ij.1 ij.2
            (compute_effect s p ij.1 ij.2).2.2,
          candsUpd ij (step (compute_effect s p ij.1 ij.2).1
            (compute_effect s p ij.1 ij.2).2.1 maxE).2 maxE cands ),
        decide (1 < ply ∧
          prev - (step (compute_effect s p ij.1 ij.2).1
            (compute_effect s p ij.1 ij.2).2.1 maxE).2 < bs ∧
          maxE < (step (compute_effect s p ij.1 ij.2).1
            (compute_effect s p ij.1 ij.2).2.1 maxE).2) ) := by
  rw [bmCell, if_neg (by simp [hsp]), if_neg hch]

/-- Zero recorded changes means `compute_effect` left the state
untouched. -/
theorem compute_effect_zero_st (s : St) (p : Player) (ij : Fin 8 × Fin 8)
    (hch : (compute_effect s p ij.1 ij.2).2.2.length = 0) :
    (compute_effect s p ij.1 ij.2).1 = s := by
  have h := compute_effect_changes s p ij.1 ij.2
  have hnil : flipsSpec s.board p.marker ij.1 ij.2 = [] := by
    rw [← h]
    exact List.eq_nil_of_length_eq_zero hch
  rw [compute_effect_nil_spec s p ij.1 ij.2 hnil]

theorem compute_effect_pos_flips (s : St) (p : Player) (ij : Fin 8 × Fin 8)
    (hch : ¬(compute_effect s p ij.1 ij.2).2.2.length = 0) :
    flipsSpec s.board p.marker ij.1 ij.2 ≠ [] := by
  intro hnil
  apply hch
  rw [compute_effect_changes, hnil]
  rfl

/-- Bundled preconditions for the state threaded through the search. -/
def goodSt (s : St) : Prop :=
  wellFormed s.board ∧ s.cntX < UINT_MOD ∧ s.cntO < UINT_MOD

theorem goodSt_compute_effect (s : St) (p : Player) (ij : Fin 8 × Fin 8)
    (hg : goodSt s) : goodSt (compute_effect s p ij.1 ij.2).1 := by
  obtain ⟨hWF, hX, hO⟩ := hg
  obtain ⟨h1, h2⟩ := compute_effect_cnt_lt s p ij.1 ij.2 hX hO
  exact ⟨compute_effect_WF s p ij.1 ij.2 hWF, h1, h2⟩

/-- The undo of `bmCell` after a trialled move restores the loop
state, provided the child evaluator is state-neutral. -/
theorem bmCell_state (step : St → Nat → Int → St × Int) (p : Player)
    (ply : Nat) (prev bs : Int) (ij : Fin 8 × Fin 8) (s : St) (maxE : Int)
    (cands : List (Fin 8 × Fin 8)) (hg : goodSt s)
    (hframe : ∀ s1 e0 mE, goodSt s1 → (step s1 e0 mE).1 = s1) :
    (bmCell step p ply prev bs ij s maxE cands).1.1 = s := by
  by_cases hocc : s.board ij.1 ij.2 ≠ ' '
  · rw [bmCell_occ step p ply prev bs ij s maxE cands hocc]
  · rw [not_not] at hocc
    by_cases hch : (compute_effect s p ij.1 ij.2).2.2.length = 0
    · rw [bmCell_zero step p ply prev bs ij s maxE cands hocc hch]
      exact compute_effect_zero_st s p ij hch
    · rw [bmCell_move step p ply prev bs ij s maxE cands hocc hch]
      show undoMove (step (compute_effect s p ij.1 ij.2).1
        (compute_effect s p ij.1 ij.2).2.1 maxE).1 p ij.1 ij.2
        (compute_effect s p ij.1 ij.2).2.2 = s
      rw [hframe _ _ _ (goodSt_compute_effect s p ij hg)]
      exact apply_undo s p ij.1 ij.2 hg.1 hocc hg.2.1 hg.2.2
        (compute_effect_pos_flips s p ij hch)

/-- The cell loop leaves the board and both counts exactly as it found
them: every applied trial is undone. -/
theorem bmLoopGen_frame (step : St → Nat → Int → St × Int) (p : Player)
    (ply : Nat) (prev bs : Int)
    (hframe : ∀ s1 e0 mE, goodSt s1 → (step s1 e0 mE).1 = s1) :
    ∀ (cells : List (Fin 8 × Fin 8)) (s : St), goodSt s →
      ∀ (maxE : Int) (cands : List (Fin 8 × Fin 8)),
      (bmLoopGen step p ply prev bs cells s maxE cands).1 = s := by
  intro cells
  induction cells with
  | nil => intro s hg maxE cands; rfl
  | cons ij rest ih =>
    intro s hg maxE cands
    rw [bmLoopGen]
    have hst := bmCell_state step p ply prev bs ij s maxE cands hg hframe
    split
    · exact hst
    · rw [hst]
      exact ih s hg _ _

theorem bmResult_fst (r : St × Int × List (Fin 8 × Fin 8)) :
    (bmResult r).1 = r.1 := by
  rw [bmResult]
  split <;> rfl

/-- Frame property of the whole search at any depth. -/
theorem bmAux_frame (mp : Nat) :
    ∀ (fuel : Nat) (p : Player) (ply : Nat) (s : St) (prev bs : Int),
      goodSt s → (bmAux mp fuel p ply s prev bs).1 = s := by
  intro fuel
  induction fuel with
  | zero =>
    intro p ply s prev bs hg
    rw [bmAux_zero, bmResult_fst]
    exact bmLoopGen_frame _ p ply prev bs (fun s1 e0 mE hg1 => rfl) allCells
      s hg _ _
  | succ fuel ih =>
    intro p ply s prev bs hg
    rw [bmAux_succ, bmResult_fst]
    refine bmLoopGen_frame _ p ply prev bs ?_ allCells s hg _ _
    intro s1 e0 mE hg1
    rw [bmStep]
    split
    · exact ih p.opponent (ply + 1) s1 (e0 : Int) mE hg1
    · rfl

/-! ### Pruning never changes the returned score -/

theorem candsUpd_fst (ij : Fin 8 × Fin 8) (e maxE : Int)
    (cands : List (Fin 8 × Fin 8)) (nb : Nat) :
    (candsUpd ij e maxE cands).1 = (scoreUpd e maxE nb).1 := rfl

theorem candsUpd_len (ij : Fin 8 × Fin 8) (e maxE : Int)
    (cands : List (Fin 8 × Fin 8)) (nb : Nat) (h : cands.length = nb) :
    (candsUpd ij e maxE cands).2.length = (scoreUpd e maxE nb).2 := by
  rw [candsUpd, scoreUpd]
  simp only
  split
  · split <;> simp [h]
  · split <;> simp [h]

theorem candsUpd_newBest (ij : Fin 8 × Fin 8) (e maxE : Int)
    (cands : List (Fin 8 × Fin 8)) (h : maxE < e) :
    candsUpd ij e maxE cands = (e, [ij]) := by
  simp [candsUpd, h]

theorem scoreUpd_newBest (e maxE : Int) (nb : Nat) (h : maxE < e) :
    scoreUpd e maxE nb = (e, 1) := by
  simp [scoreUpd, h]

theorem candsUpd_lt (ij : Fin 8 × Fin 8) (e maxE : Int)
    (cands : List (Fin 8 × Fin 8)) (h : e < maxE) :
    candsUpd ij e maxE cands = (maxE, cands) := by
  rw [candsUpd]
  rw [if_neg (by omega), if_neg (by omega)]
  rw [if_neg (by omega)]

theorem scoreUpd_lt (e maxE : Int) (nb : Nat) (h : e < maxE) :
    scoreUpd e maxE nb = (maxE, nb) := by
  rw [scoreUpd]
  rw [if_neg (by omega), if_neg (by omega)]
  rw [if_neg (by omega)]

theorem mmLoopGen_cons_occ (mstep : St → Nat → Int) (p : Player) (s : St)
    (ij : Fin 8 × Fin 8) (rest : List (Fin 8 × Fin 8)) (maxE : Int) (nb : Nat)
    (hocc : s.board ij.1 ij.2 ≠ ' ') :
    mmLoopGen mstep p s (ij :: rest) maxE nb =
      mmLoopGen mstep p s rest maxE nb := by
  rw [mmLoopGen, if_pos hocc]

theorem mmLoopGen_cons_zero (mstep : St → Nat → Int) (p : Player) (s : St)
    (ij : Fin 8 × Fin 8) (rest : List (Fin 8 × Fin 8)) (maxE : Int) (nb : Nat)
    (hsp : s.board ij.1 ij.2 = ' ')
    (hch : (compute_effect s p ij.1 ij.2).2.2.length = 0) :
    mmLoopGen mstep p s (ij :: rest) maxE nb =
      mmLoopGen mstep p s rest maxE nb := by
  rw [mmLoopGen, if_neg (by simp [hsp]), if_pos hch]

theorem mmLoopGen_cons_move (mstep : St → Nat → Int) (p : Player) (s : St)
    (ij : Fin 8 × Fin 8) (rest : List (Fin 8 × Fin 8)) (maxE : Int) (nb : Nat)
    (hsp : s.board ij.1 ij.2 = ' ')
    (hch : ¬(compute_effect s p ij.1 ij.2).2.2.length = 0) :
    mmLoopGen mstep p s (ij :: rest) maxE nb =
      mmLoopGen mstep p s rest
        (scoreUpd (mstep (compute_effect s p ij.1 ij.2).1
          (compute_effect s p ij.1 ij.2).2.1) maxE nb).1
        (scoreUpd (mstep (compute_effect s p ij.1 ij.2).1
          (compute_effect s p ij.1 ij.2).2.1) maxE nb).2 := by
  rw [mmLoopGen, if_neg (by simp [hsp]), if_neg hch]

/-- The reference loop's best score never decreases. -/
theorem mmLoopGen_mono (mstep : St → Nat → Int) (p : Player) (s : St) :
    ∀ (cells : List (Fin 8 × Fin 8)) (maxE : Int) (nb : Nat),
      maxE ≤ (mmLoopGen mstep p s cells maxE nb).1 := by
  intro cells
  induction cells with
  | nil => intro maxE nb; exact le_refl _
  | cons ij rest ih =>
    intro maxE nb
    rw [mmLoopGen]
    split
    · exact ih maxE nb
    · split
      · exact ih maxE nb
      · refine le_trans ?_ (ih _ _)
        rw [scoreUpd]
        simp only
        split <;> omega

/-- Once a move has been recorded, the reference loop's candidate
count never returns to zero. -/
theorem mmLoopGen_sticky (mstep : St → Nat → Int) (p : Player) (s : St) :
    ∀ (cells : List (Fin 8 × Fin 8)) (maxE : Int) (nb : Nat), nb ≠ 0 →
      (mmLoopGen mstep p s cells maxE nb).2 ≠ 0 := by
  intro cells
  induction cells with
  | nil => intro maxE nb h; exact h
  | cons ij rest ih =>
    intro maxE nb h
    rw [mmLoopGen]
    split
    · exact ih maxE nb h
    · split
      · exact ih maxE nb h
      · refine ih _ _ ?_
        rw [scoreUpd]
        simp only
        by_cases hlt : maxE < mstep (compute_effect s p ij.1 ij.2).1
            (compute_effect s p ij.1 ij.2).2.1
        · rw [if_pos hlt, if_pos rfl]
          omega
        · rw [if_neg hlt]
          split <;> omega

/-- Core invariant of alpha-beta soundness, at the level of one cell
loop.  `step`/`mstep` are the pruned and reference child evaluators;
`hchild` is the induction hypothesis: a child either returns the
reference score, or it was cut off, in which case its net score is
below the `best_sibling` bound it was given (`maxE` here) and at
least the reference score.  Conclusion: either the loops agree on
`max_effect` and on the number of recorded candidates, or this node
itself was cut off, and then its score is below `bs`, at most the
reference score, and both sides have recorded at least one
candidate. -/
theorem loopEquiv (p : Player) (ply : Nat) (prev bs : Int)
    (step : St → Nat → Int → St × Int) (mstep : St → Nat → Int)
    (hframe : ∀ s1 e0 mE, goodSt s1 → (step s1 e0 mE).1 = s1)
    (hchild : ∀ s1 e0 mE, goodSt s1 →
      (step s1 e0 mE).2 = mstep s1 e0 ∨
      ((step s1 e0 mE).2 < mE ∧ mstep s1 e0 ≤ (step s1 e0 mE).2)) :
    ∀ (cells : List (Fin 8 × Fin 8)) (s : St), goodSt s →
      ∀ (maxE : Int) (cands : List (Fin 8 × Fin 8)) (nb : Nat),
        cands.length = nb →
      ((bmLoopGen step p ply prev bs cells s maxE cands).2.1 =
          (mmLoopGen mstep p s cells maxE nb).1 ∧
        (bmLoopGen step p ply prev bs cells s maxE cands).2.2.length =
          (mmLoopGen mstep p s cells maxE nb).2) ∨
      (1 < ply ∧
        prev - (bmLoopGen step p ply prev bs cells s maxE cands).2.1 < bs ∧
        (bmLoopGen step p ply prev bs cells s maxE cands).2.1 ≤
          (mmLoopGen mstep p s cells maxE nb).1 ∧
        (mmLoopGen mstep p s cells maxE nb).2 ≠ 0 ∧
        (bmLoopGen step p ply prev bs cells s maxE cands).2.2 ≠ []) := by
  intro cells
  induction cells with
  | nil =>
    intro s hg maxE cands nb hlink
    left
    exact ⟨rfl, hlink⟩
  | cons ij rest ih =>
    intro s hg maxE cands nb hlink
    by_cases hocc : s.board ij.1 ij.2 ≠ ' '
    · rw [bmLoopGen, bmCell_occ step p ply prev bs ij s maxE cands hocc,
        mmLoopGen_cons_occ mstep p s ij rest maxE nb hocc,
        if_neg (by simp)]
      exact ih s hg maxE cands nb hlink
    · rw [not_not] at hocc
      by_cases hch : (compute_effect s p ij.1 ij.2).2.2.length = 0
      · rw [bmLoopGen, bmCell_zero step p ply prev bs ij s maxE cands hocc hch,
          mmLoopGen_cons_zero mstep p s ij rest maxE nb hocc hch,
          if_neg (by simp)]
        rw [compute_effect_zero_st s p ij hch]
        exact ih s hg maxE cands nb hlink
      · have hg1 : goodSt (compute_effect s p ij.1 ij.2).1 :=
          goodSt_compute_effect s p ij hg
        rw [bmLoopGen, bmCell_move step p ply prev bs ij s maxE cands hocc hch,
          mmLoopGen_cons_move mstep p s ij rest maxE nb hocc hch]
        have hundo : undoMove (step (compute_effect s p ij.1 ij.2).1
            (compute_effect s p ij.1 ij.2).2.1 maxE).1 p ij.1 ij.2
            (compute_effect s p ij.1 ij.2).2.2 = s := by
          rw [hframe _ _ _ hg1]
          exact apply_undo s p ij.1 ij.2 hg.1 hocc hg.2.1 hg.2.2
            (compute_effect_pos_flips s p ij hch)
        rw [hundo]
        have hc := hchild (compute_effect s p ij.1 ij.2).1
          (compute_effect s p ij.1 ij.2).2.1 maxE hg1
        generalize hE : (step (compute_effect s p ij.1 ij.2).1
          (compute_effect s p ij.1 ij.2).2.1 maxE).2 = e at hc ⊢
        generalize hEN : mstep (compute_effect s p ij.1 ij.2).1
          (compute_effect s p ij.1 ij.2).2.1 = eN at hc ⊢
        rcases hc with heq | ⟨hlt, hge⟩
        · rw [← heq]
          by_cases hcut : 1 < ply ∧ prev - e < bs ∧ maxE < e
          · rw [if_pos (by simp only [decide_eq_true_eq]; exact hcut)]
            right
            rw [candsUpd_newBest ij e maxE cands hcut.2.2,
              scoreUpd_newBest e maxE nb hcut.2.2]
            refine ⟨hcut.1, hcut.2.1, ?_, ?_, ?_⟩
            · exact mmLoopGen_mono mstep p s rest e 1
            · exact mmLoopGen_sticky mstep p s rest e 1 (by omega)
            · simp
          · rw [if_neg (by simp only [decide_eq_true_eq]; exact hcut)]
            have hlink' : (candsUpd ij e maxE cands).2.length =
                (scoreUpd e maxE nb).2 := candsUpd_len ij e maxE cands nb hlink
            have hfst : (scoreUpd e maxE nb).1 = (candsUpd ij e maxE cands).1 :=
              rfl
            rw [hfst]
            exact ih s hg (candsUpd ij e maxE cands).1
              (candsUpd ij e maxE cands).2 (scoreUpd e maxE nb).2 hlink'
        · rw [if_neg (by
            simp only [decide_eq_true_eq]
            intro hcut
            exact absurd hcut.2.2 (by omega))]
          rw [candsUpd_lt ij e maxE cands hlt,
            scoreUpd_lt eN maxE nb (by omega)]
          exact ih s hg maxE cands nb hlink

/-- Transport of the loop disjunction through the post-loop report
(`num_best_moves == 0` handling). -/
theorem resultEquiv (P : St × Int × List (Fin 8 × Fin 8)) (N : Int × Nat)
    (ply : Nat) (prev bs : Int)
    (h : (P.2.1 = N.1 ∧ P.2.2.length = N.2) ∨
      (1 < ply ∧ prev - P.2.1 < bs ∧ P.2.1 ≤ N.1 ∧ N.2 ≠ 0 ∧ P.2.2 ≠ [])) :
    (bmResult P).2.1 = mmResult N ∨
    (1 < ply ∧ prev - (bmResult P).2.1 < bs ∧
      (bmResult P).2.1 ≤ mmResult N) := by
  rcases h with ⟨hs, hn⟩ | ⟨hply, hlt, hle, hnb, hcands⟩
  · left
    rw [bmResult, mmResult]
    by_cases h0 : P.2.2.length = 0
    · rw [if_pos h0, if_pos (by omega)]
    · rw [if_neg h0, if_neg (by omega)]
      exact hs
  · right
    rw [bmResult, mmResult]
    rw [if_neg (fun h0 => hcands (List.eq_nil_of_length_eq_zero h0)),
      if_neg hnb]
    exact ⟨hply, hlt, hle⟩

/-- Alpha-beta soundness at every depth: the pruned search either
returns the reference score, or it was cut off and then its score is
below the `best_sibling` bound it was given and at most the reference
score (so its parent rejects the move either way). -/
theorem auxEquiv (mp : Nat) :
    ∀ (fuel : Nat) (p : Player) (ply : Nat) (s : St) (prev bs : Int),
      goodSt s →
      (bmAux mp fuel p ply s prev bs).2.1 = mmAux mp fuel p ply s ∨
      (1 < ply ∧ prev - (bmAux mp fuel p ply s prev bs).2.1 < bs ∧
        (bmAux mp fuel p ply s prev bs).2.1 ≤ mmAux mp fuel p ply s) := by
  intro fuel
  induction fuel with
  | zero =>
    intro p ply s prev bs hg
    rw [bmAux_zero, mmAux_zero]
    exact resultEquiv _ _ ply prev bs
      (loopEquiv p ply prev bs leafStep mmLeafStep
        (fun s1 e0 mE hg1 => rfl) (fun s1 e0 mE hg1 => Or.inl rfl)
        allCells s hg INIT_MAX_EFFECT [] 0 rfl)
  | succ fuel ih =>
    intro p ply s prev bs hg
    rw [bmAux_succ, mmAux_succ]
    refine resultEquiv _ _ ply prev bs
      (loopEquiv p ply prev bs (bmStep p mp fuel ply) (mmStep p mp fuel ply)
        ?_ ?_ allCells s hg INIT_MAX_EFFECT [] 0 rfl)
    · intro s1 e0 mE hg1
      rw [bmStep]
      split
      · exact bmAux_frame mp fuel p.opponent (ply + 1) s1 (e0 : Int) mE hg1
      · rfl
    · intro s1 e0 mE hg1
      rw [bmStep, mmStep]
      by_cases hC : ply < mp ∧ (s1.cnt p + s1.cnt p.opponent) % UINT_MOD < 64
      · rw [if_pos hC, if_pos hC]
        rcases ih p.opponent (ply + 1) s1 (e0 : Int) mE hg1 with
          he | ⟨hply1, hlt1, hle1⟩
        · left
          show (e0 : Int) - (bmAux mp fuel p.opponent (ply + 1) s1 (e0 : Int)
            mE).2.1 = (e0 : Int) - mmAux mp fuel p.opponent (ply + 1) s1
          rw [he]
        · right
          refine ⟨hlt1, ?_⟩
          show (e0 : Int) - mmAux mp fuel p.opponent (ply + 1) s1 ≤
            (e0 : Int) - (bmAux mp fuel p.opponent (ply + 1) s1 (e0 : Int)
              mE).2.1
          omega
      · rw [if_neg hC, if_neg hC]
        left
        rfl

/-- At the root (as `main` calls it: `ply = 1`), alpha-beta pruning
never changes the returned score. -/
theorem best_move_eq_minimax (s : St) (p : Player) (mp : Nat)
    (prev bs : Int) (hg : goodSt s) :
    (best_move s p 1 mp prev bs).2.1 = minimax_noprune s p 1 mp := by
  rw [best_move, minimax_noprune]
  rcases auxEquiv mp (mp - 1) p 1 s prev bs hg with h | ⟨hply, _⟩
  · exact h
  · omega

/-- Frame property of `best_move` as called anywhere in the program. -/
theorem best_move_frame (s : St) (p : Player) (ply mp : Nat)
    (prev bs : Int) (hg : goodSt s) :
    (best_move s p ply mp prev bs).1 = s :=
  bmAux_frame mp (mp - ply) p ply s prev bs hg

/-! ### Remaining supporting lemmas for the claims -/

theorem idx_weight_pos (x : Nat) : 1 ≤ idx_weight x := by
  rw [idx_weight]
  split <;> decide

theorem h_func_pos (r c : Nat) : 1 ≤ h_func r c :=
  Nat.one_le_iff_ne_zero.mpr
    (Nat.mul_ne_zero (by have := idx_weight_pos r; omega)
      (by have := idx_weight_pos c; omega))

theorem lineScore_ge_length (l : List (Fin 8 × Fin 8)) :
    l.length ≤ lineScore l := by
  induction l with
  | nil => exact le_refl _
  | cons x xs ih =>
    have := h_func_pos (x.1 : Nat) (x.2 : Nat)
    have h : lineScore (x :: xs) = h_func x.1 x.2 + lineScore xs := by
      rw [lineScore, lineScore]
      simp
    rw [h]
    simp only [List.length_cons]
    omega

theorem consistent_bounds (s : St) (hc : consistent s) :
    s.cntX < UINT_MOD ∧ s.cntO < UINT_MOD := by
  have h1 := countMarker_le s.board 'X'
  have h2 := countMarker_le s.board 'O'
  rw [hc.1, hc.2]
  constructor <;> (rw [UINT_MOD]; omega)

theorem flipsSpec_nil_of_dirs (b : Board) (m : Char) (r c : Fin 8)
    (h : ∀ d ∈ vectors, lineFlips b m r c d = []) :
    flipsSpec b m r c = [] := by
  rw [flipsSpec]
  rw [List.flatten_eq_nil_iff]
  intro l hl
  rw [List.mem_map] at hl
  obtain ⟨d, hd, rfl⟩ := hl
  exact h d hd

/-- When no empty cell yields a flip, every cell of the loop is
skipped and the loop state survives untouched. -/
theorem bmLoopGen_all_skip (step : St → Nat → Int → St × Int) (p : Player)
    (ply : Nat) (prev bs : Int) (s : St)
    (hnone : ∀ ij : Fin 8 × Fin 8, s.board ij.1 ij.2 = ' ' →
      (compute_effect s p ij.1 ij.2).2.2.length = 0) :
    ∀ (cells : List (Fin 8 × Fin 8)) (maxE : Int)
      (cands : List (Fin 8 × Fin 8)),
      bmLoopGen step p ply prev bs cells s maxE cands = (s, maxE, cands) := by
  intro cells
  induction cells with
  | nil => intro maxE cands; rfl
  | cons ij rest ih =>
    intro maxE cands
    by_cases hocc : s.board ij.1 ij.2 ≠ ' '
    · rw [bmLoopGen, bmCell_occ step p ply prev bs ij s maxE cands hocc,
        if_neg (by simp)]
      exact ih maxE cands
    · rw [not_not] at hocc
      rw [bmLoopGen, bmCell_zero step p ply prev bs ij s maxE cands hocc
        (hnone ij hocc), if_neg (by simp)]
      rw [compute_effect_zero_st s p ij (hnone ij hocc)]
      exact ih maxE cands

/-! ### Concrete positions used by the witnesses -/

/-- The starting position set up by `main`: X at (3,3),(4,4), O at
(3,4),(4,3). -/
def initBoard : Board := fun i j =>
  if (i = 3 ∧ j = 3) ∨ (i = 4 ∧ j = 4) then 'X'
  else if (i = 3 ∧ j = 4) ∨ (i = 4 ∧ j = 3) then 'O'
  else ' '

/-- The starting state: both counts are 2. -/
def initSt : St := ⟨initBoard, 2, 2⟩

/-- A position in which O has no legal move: a lone X marker. -/
def loneBoard : Board := fun i j =>
  if i = 3 ∧ j = 3 then 'X' else ' '

def loneSt : St := ⟨loneBoard, 1, 0⟩

/-! ### The claims -/

/-- C8: the heuristic weight of every cell `(r,c)` is the product of
its row-weight and column-weight, each `8` for index 0 or 7 and `1`
otherwise: corners score 64, edge non-corner cells 8, all others 1. -/
theorem claim_C8_heuristic_weights : ∀ r c : Fin 8,
    h_func (r : Nat) (c : Nat) = idx_weight r * idx_weight c ∧
    idx_weight (r : Nat) = (if (r : Nat) = 0 ∨ (r : Nat) = 7 then 8 else 1) ∧
    h_func (r : Nat) (c : Nat) =
      (if ((r : Nat) = 0 ∨ (r : Nat) = 7) ∧ ((c : Nat) = 0 ∨ (c : Nat) = 7)
       then 64
       else if ((r : Nat) = 0 ∨ (r : Nat) = 7) ∨ ((c : Nat) = 0 ∨ (c : Nat) = 7)
       then 8
       else 1) := by decide

/-- C10: `compute_effect` returns score 0 exactly when it flips no
cell, and any move with at least one flip scores at least 2 (placed
cell weight at least 1, each flipped cell weight at least 1) — the
facts the game loop relies on when testing `effect == 0` and
`best_move(...) > 0`. -/
theorem claim_C10_score_positive : ∀ (s : St) (p : Player) (r c : Fin 8),
    ((compute_effect s p r c).2.1 = 0 ↔ (compute_effect s p r c).2.2 = []) ∧
    ((compute_effect s p r c).2.2 ≠ [] → 2 ≤ (compute_effect s p r c).2.1) := by
  intro s p r c
  rw [compute_effect_eq]
  split
  · rename_i hlen
    have hne : flipsSpec s.board p.marker r c ≠ [] := by
      intro h
      rw [h] at hlen
      simp at hlen
    have h1 := h_func_pos (r : Nat) (c : Nat)
    have h2 := lineScore_ge_length (flipsSpec s.board p.marker r c)
    have h3 : 1 ≤ (flipsSpec s.board p.marker r c).length :=
      List.length_pos.mpr hne
    constructor
    · constructor
      · intro h
        exfalso
        simp only at h
        omega
      · intro h
        exact absurd h hne
    · intro _
      simp only
      omega
  · exact ⟨by simp, by simp⟩

/-- C10 witness: the legal opening move X at (2,4) has at least one
flip and scores at least 2. -/
theorem claim_C10_witness :
    2 ≤ (compute_effect initSt Player.X 2 4).2.1 :=
  (claim_C10_score_positive initSt Player.X 2 4).2 (by decide)

/-- C6: for an empty cell from which no direction yields any flip,
`compute_effect` performs no mutation at all (the state — board and
both counts — is returned unchanged), reports score 0 and the empty
change list; the zero-yield condition is an ordinary return value (the
function is total), never a fault. -/
theorem claim_C6_zero_yield (s : St) (p : Player) (r c : Fin 8)
    (hEmpty : s.board r c = ' ')
    (hnone : ∀ d ∈ vectors, lineFlips s.board p.marker r c d = []) :
    compute_effect s p r c = (s, 0, []) :=
  compute_effect_nil_spec s p r c
    (flipsSpec_nil_of_dirs s.board p.marker r c hnone)

/-- C6 witness: placing X at the corner (0,0) of the opening position
flips nothing in any direction and mutates nothing. -/
theorem claim_C6_witness :
    compute_effect initSt Player.X 0 0 = (initSt, 0, []) :=
  claim_C6_zero_yield initSt Player.X 0 0 (by decide) (by decide)

/-- C1: on a well-formed board with counts consistent with the board,
applying a move with at least one flip at an empty cell and then
undoing it with the returned flip list restores the exact prior board
and both players' counts. -/
theorem claim_C1_apply_undo_inverse (s : St) (p : Player) (r c : Fin 8)
    (hWF : wellFormed s.board) (hcons : consistent s)
    (hEmpty : s.board r c = ' ')
    (hpos : (compute_effect s p r c).2.2 ≠ []) :
    undoMove (compute_effect s p r c).1 p r c
      (compute_effect s p r c).2.2 = s := by
  obtain ⟨hX, hO⟩ := consistent_bounds s hcons
  apply apply_undo s p r c hWF hEmpty hX hO
  intro h
  apply hpos
  rw [compute_effect_changes, h]

/-- C1 witness: the opening move X at (2,4) applied and undone
restores the starting state. -/
theorem claim_C1_witness :
    undoMove (compute_effect initSt Player.X 2 4).1 Player.X 2 4
      (compute_effect initSt Player.X 2 4).2.2 = initSt :=
  claim_C1_apply_undo_inverse initSt Player.X 2 4 (by decide) (by decide)
    (by decide) (by decide)

/-- C9: `best_move`, at any ply and any pruning behavior, returns with
the board and both players' counts exactly equal to their values at
entry: every trial apply inside the loop is undone before the next
cell and before returning. -/
theorem claim_C9_search_frame (s : St) (p : Player) (ply mp : Nat)
    (prev bs : Int) (hWF : wellFormed s.board)
    (hX : s.cntX < UINT_MOD) (hO : s.cntO < UINT_MOD) :
    (best_move s p ply mp prev bs).1 = s :=
  best_move_frame s p ply mp prev bs ⟨hWF, hX, hO⟩

/-- C9 witness: a depth-3 search from the opening position leaves the
state untouched. -/
theorem claim_C9_witness :
    (best_move initSt Player.X 1 3 0 0).1 = initSt :=
  claim_C9_search_frame initSt Player.X 1 3 0 0 (by decide) (by decide)
    (by decide)

/-- C2: for every position and `maxPly`, the score returned by the
pruned search (`best_move` at the root, `ply = 1`, as `main` calls it)
equals the score of the unpruned full minimax over the same position.
The random seed only selects among equal-score candidate chains and
cannot affect the score, which the model reflects by carrying the full
candidate list. -/
theorem claim_C2_alphabeta_equivalence (s : St) (p : Player) (mp : Nat)
    (prev bs : Int) (hWF : wellFormed s.board)
    (hX : s.cntX < UINT_MOD) (hO : s.cntO < UINT_MOD) :
    (best_move s p 1 mp prev bs).2.1 = minimax_noprune s p 1 mp :=
  best_move_eq_minimax s p mp prev bs ⟨hWF, hX, hO⟩

/-- C2 witness: pruned and unpruned scores agree for a depth-3 search
from the opening position. -/
theorem claim_C2_witness :
    (best_move initSt Player.X 1 3 0 0).2.1 =
      minimax_noprune initSt Player.X 1 3 :=
  claim_C2_alphabeta_equivalence initSt Player.X 3 0 0 (by decide)
    (by decide) (by decide)

/-- C7: when no empty cell yields a non-zero flip set for the player
to move, `best_move` reports the sentinel no-move result — the NULL
chain, modelled as the empty candidate list and distinct from any
recorded zero-score move — and the score it contributes to its parent
is 0 (while the state is left untouched). -/
theorem claim_C7_no_move_sentinel (s : St) (p : Player) (ply mp : Nat)
    (prev bs : Int)
    (hnone : ∀ i j : Fin 8, s.board i j = ' ' →
      (compute_effect s p i j).2.2 = []) :
    best_move s p ply mp prev bs = (s, 0, []) := by
  have hnone' : ∀ ij : Fin 8 × Fin 8, s.board ij.1 ij.2 = ' ' →
      (compute_effect s p ij.1 ij.2).2.2.length = 0 := by
    intro ij h
    rw [hnone ij.1 ij.2 h]
    rfl
  rw [best_move]
  cases hf : mp - ply with
  | zero =>
    rw [bmAux_zero, bmLoopGen_all_skip _ p ply prev bs s hnone' allCells _ _]
    rfl
  | succ fuel =>
    rw [bmAux_succ, bmLoopGen_all_skip _ p ply prev bs s hnone' allCells _ _]
    rfl

/-- C7 witness: with a lone X marker on the board, O has no legal
move anywhere, and the search reports the NULL chain with score 0. -/
theorem claim_C7_witness :
    best_move loneSt Player.O 1 3 0 0 = (loneSt, 0, []) :=
  claim_C7_no_move_sentinel loneSt Player.O 1 3 0 0 (by decide)

/-- C5 (amended): a move with `n ≥ 1` flips leaves every flipped cell
and the placed cell owned by the mover, raises the mover's count by
`n + 1`, lowers the opponent's count by `n`, so the combined count of
both players rises by exactly 1 (not `n + 1` as the claim states:
flips only change ownership, and one marker is placed), and the score
is the heuristic weight of the placed cell plus the weights of all
flipped cells. -/
theorem claim_C5_apply_effects (s : St) (p : Player) (r c : Fin 8)
    (hWF : wellFormed s.board) (hcons : consistent s)
    (hEmpty : s.board r c = ' ')
    (hpos : (compute_effect s p r c).2.2 ≠ []) :
    (∀ q ∈ (compute_effect s p r c).2.2,
        (compute_effect s p r c).1.board q.1 q.2 = p.marker) ∧
    (compute_effect s p r c).1.board r c = p.marker ∧
    (compute_effect s p r c).1.cnt p =
      s.cnt p + ((compute_effect s p r c).2.2.length + 1) ∧
    (compute_effect s p r c).1.cnt p.opponent +
        (compute_effect s p r c).2.2.length = s.cnt p.opponent ∧
    (compute_effect s p r c).1.cnt p +
        (compute_effect s p r c).1.cnt p.opponent =
      s.cnt p + s.cnt p.opponent + 1 ∧
    (compute_effect s p r c).2.1 =
      h_func r c + lineScore (compute_effect s p r c).2.2 := by
  have hF : flipsSpec s.board p.marker r c ≠ [] := by
    intro h
    apply hpos
    rw [compute_effect_changes, h]
  obtain ⟨hbd, hcp, hco, hsc⟩ := compute_effect_pos_spec s p r c hF
  rw [compute_effect_changes]
  have hnd := flipsSpec_nodup s.board p.marker r c
  have hnle : (flipsSpec s.board p.marker r c).length ≤
      countMarker s.board p.opponent.marker := by
    refine length_le_countMarker s.board p.opponent.marker _ hnd ?_
    intro q hq
    obtain ⟨h1, h2⟩ := flipsSpec_orig s.board p.marker r c q hq
    exact opp_marker_of_ne s.board hWF p q.1 q.2 h1 h2
  have hcntp := consistent_cnt s hcons p
  have hcnto := consistent_cnt s hcons p.opponent
  have hm1 := countMarker_le s.board p.marker
  have hm2 := countMarker_le s.board p.opponent.marker
  have h3 : (compute_effect s p r c).1.cnt p =
      s.cnt p + ((flipsSpec s.board p.marker r c).length + 1) := by
    rw [hcp]
    simp only [UINT_MOD] at *
    omega
  have h4 : (compute_effect s p r c).1.cnt p.opponent +
      (flipsSpec s.board p.marker r c).length = s.cnt p.opponent := by
    rw [hco]
    simp only [UINT_MOD] at *
    omega
  refine ⟨?_, ?_, h3, h4, by omega, ?_⟩
  · intro q hq
    rw [hbd, setCell]
    split
    · rfl
    · exact applyFlips_mem p.marker _ s.board q hq
  · rw [hbd, setCell, if_pos ⟨rfl, rfl⟩]
  · rw [hsc]
    omega

/-- C5 witness: the opening move X at (2,4) flips exactly one cell,
raises X's count to 4, lowers O's to 1, and scores
`h(2,4) + h(3,4) = 2`. -/
theorem claim_C5_witness :
    (∀ q ∈ (compute_effect initSt Player.X 2 4).2.2,
        (compute_effect initSt Player.X 2 4).1.board q.1 q.2 =
          Player.X.marker) ∧
    (compute_effect initSt Player.X 2 4).1.board 2 4 = Player.X.marker ∧
    (compute_effect initSt Player.X 2 4).1.cnt Player.X =
      initSt.cnt Player.X +
        ((compute_effect initSt Player.X 2 4).2.2.length + 1) ∧
    (compute_effect initSt Player.X 2 4).1.cnt Player.X.opponent +
        (compute_effect initSt Player.X 2 4).2.2.length =
      initSt.cnt Player.X.opponent ∧
    (compute_effect initSt Player.X 2 4).1.cnt Player.X +
        (compute_effect initSt Player.X 2 4).1.cnt Player.X.opponent =
      initSt.cnt Player.X + initSt.cnt Player.X.opponent + 1 ∧
    (compute_effect initSt Player.X 2 4).2.1 =
      h_func 2 4 + lineScore (compute_effect initSt Player.X 2 4).2.2 :=
  claim_C5_apply_effects initSt Player.X 2 4 (by decide) (by decide)
    (by decide) (by decide)

/-- C5 counterexample: at the opening position the move X at (2,4)
flips one cell; the combined count goes from 4 to 5, a rise of 1, not
of `flips + 1 = 2` as the claim asserts. -/
theorem claim_C5_counterexample :
    ¬((compute_effect initSt Player.X 2 4).1.cnt Player.X +
        (compute_effect initSt Player.X 2 4).1.cnt Player.X.opponent =
      initSt.cnt Player.X + initSt.cnt Player.X.opponent +
        ((compute_effect initSt Player.X 2 4).2.2.length + 1)) := by decide

/-- C4: `compute_effect` considers each of the 8 unit directions and
its change list is the concatenation of the per-direction flips of
the pre-move board; a direction's flips are exactly the contiguous run
of opponent-owned cells outward from `(r,c)` and occur if and only if
the run is terminated by a mover-owned cell (edge or empty cell yield
nothing); each direction contributes at most 6 flips. -/
theorem claim_C4_direction_scan (s : St) (p : Player) (r c : Fin 8)
    (hEmpty : s.board r c = ' ') :
    (compute_effect s p r c).2.2 =
      (vectors.map fun d => lineFlips s.board p.marker r c d).flatten ∧
    (∀ d ∈ vectors, (lineFlips s.board p.marker r c d).length ≤ 6) ∧
    (∀ d ∈ vectors,
      (lineFlips s.board p.marker r c d ≠ [] ↔
        ∃ n, 1 ≤ n ∧
          (∀ k, 1 ≤ k → k ≤ n →
            ∃ q, rayQ (r : Int) (c : Int) d k = some q ∧
              s.board q.1 q.2 ≠ ' ' ∧ s.board q.1 q.2 ≠ p.marker) ∧
          ∃ q, rayQ (r : Int) (c : Int) d (n + 1) = some q ∧
            s.board q.1 q.2 = p.marker)) ∧
    (∀ d ∈ vectors, ∀ k, k < (lineFlips s.board p.marker r c d).length →
      ∃ q, (lineFlips s.board p.marker r c d).get? k = some q ∧
        rayQ (r : Int) (c : Int) d (k + 1) = some q) := by
  refine ⟨compute_effect_changes s p r c, ?_, ?_, ?_⟩
  · intro d hd
    rcases lineFlips_eq_cases s.board p.marker r c d with h | ⟨l, hsc, h⟩
    · rw [h]; simp
    · rw [h]
      obtain ⟨_, qT, hqT, _⟩ := scanLine_some_spec s.board p.marker d 8 _ _ l hsc
      have := rayQ_bound d hd r c (l.length + 1) qT hqT
      omega
  · intro d hd
    constructor
    · intro hne
      rcases lineFlips_eq_cases s.board p.marker r c d with h | ⟨l, hsc, h⟩
      · exact absurd h hne
      · rw [h] at hne
        obtain ⟨hcells, qT, hqT, hqTm⟩ :=
          scanLine_some_spec s.board p.marker d 8 _ _ l hsc
        refine ⟨l.length, List.length_pos.mpr hne, ?_, qT, hqT, hqTm⟩
        intro k hk1 hk2
        obtain ⟨h1, h2, h3⟩ := hcells (k - 1) (by omega)
        refine ⟨l.get ⟨k - 1, by omega⟩, ?_, h2, h3⟩
        have heq : k - 1 + 1 = k := by omega
        rw [heq] at h1
        exact h1
    · rintro ⟨n, hn1, hrun, qT, hqT, hqTm⟩
      have hb := rayQ_bound d hd r c (n + 1) qT hqT
      obtain ⟨l, hsc, hlen⟩ := scanLine_of_run s.board p.marker d
        p.marker_ne_space n 8 (r : Int) (c : Int) (by omega) hrun
        ⟨qT, hqT, hqTm⟩
      rw [lineFlips, hsc]
      intro hcon
      rw [Option.getD_some] at hcon
      rw [hcon] at hlen
      simp at hlen
      omega
  · intro d hd k hk
    rcases lineFlips_eq_cases s.board p.marker r c d with h | ⟨l, hsc, h⟩
    · rw [h] at hk
      simp at hk
    · rw [h] at hk ⊢
      obtain ⟨hcells, _⟩ := scanLine_some_spec s.board p.marker d 8 _ _ l hsc
      exact ⟨l.get ⟨k, hk⟩, List.get?_eq_get hk, (hcells k hk).1⟩

/-- C4 witness: at the opening position, the change list of the move
X at (2,4) is the concatenation of the per-direction flip runs. -/
theorem claim_C4_witness :
    (compute_effect initSt Player.X 2 4).2.2 =
      (vectors.map fun d =>
        lineFlips initSt.board Player.X.marker 2 4 d).flatten :=
  (claim_C4_direction_scan initSt Player.X 2 4 (by decide)).1

/-- The side condition `hinv` of the cutoff claim is a genuine loop
invariant: it holds at loop entry (`max_effect = INIT_MAX_EFFECT`)
and is preserved by every cell that does not itself set `done` at a
ply greater than 1 (a non-cutting strict improvement `e` satisfies
`prev_move_val - e ≥ best_sibling` by the very test that failed). -/
theorem bmCell_preserves_inv (step : St → Nat → Int → St × Int) (p : Player)
    (ply : Nat) (prev bs : Int) (ij : Fin 8 × Fin 8) (s : St) (maxE : Int)
    (cands : List (Fin 8 × Fin 8)) (hply : 1 < ply)
    (hinv : maxE = INIT_MAX_EFFECT ∨ bs ≤ prev - maxE)
    (hdone : (bmCell step p ply prev bs ij s maxE cands).2 = false) :
    (bmCell step p ply prev bs ij s maxE cands).1.2.1 = INIT_MAX_EFFECT ∨
    bs ≤ prev - (bmCell step p ply prev bs ij s maxE cands).1.2.1 := by
  by_cases hocc : s.board ij.1 ij.2 ≠ ' '
  · rw [bmCell_occ step p ply prev bs ij s maxE cands hocc]
    exact hinv
  · rw [not_not] at hocc
    by_cases hch : (compute_effect s p ij.1 ij.2).2.2.length = 0
    · rw [bmCell_zero step p ply prev bs ij s maxE cands hocc hch]
      exact hinv
    · rw [bmCell_move step p ply prev bs ij s maxE cands hocc hch] at hdone ⊢
      simp only [decide_eq_false_iff_not] at hdone
      show (candsUpd ij (step (compute_effect s p ij.1 ij.2).1
        (compute_effect s p ij.1 ij.2).2.1 maxE).2 maxE cands).1 =
          INIT_MAX_EFFECT ∨
        bs ≤ prev - (candsUpd ij (step (compute_effect s p ij.1 ij.2).1
          (compute_effect s p ij.1 ij.2).2.1 maxE).2 maxE cands).1
      rw [candsUpd]
      simp only
      by_cases hlt : maxE < (step (compute_effect s p ij.1 ij.2).1
          (compute_effect s p ij.1 ij.2).2.1 maxE).2
      · rw [if_pos hlt]
        right
        have : ¬(prev - (step (compute_effect s p ij.1 ij.2).1
            (compute_effect s p ij.1 ij.2).2.1 maxE).2 < bs) := by
          intro hc
          exact hdone ⟨hply, hc, hlt⟩
        omega
      · rw [if_neg hlt]
        exact hinv

/-- C3: in the search loop at a ply greater than 1, once a trial move
is found whose net score `e` satisfies `prev_move_val - e <
best_sibling`, the remaining untried cells are dropped, and the
best-score candidate standing at the node is the cutting move itself
(a strict improvement replaces all earlier candidates).  The two side
conditions reflect the loop's reachable states: `hinv` holds at every
iteration (`max_effect` starts at `INIT_MAX_EFFECT`, and whenever it
was raised by a non-cutting move, `prev_move_val - max_effect ≥
best_sibling` held), and `hgt` is the code's own asserted invariant
`effect > INIT_MAX_EFFECT`; together they make the trial a strict
improvement, which is where the C code tests the cutoff. -/
theorem claim_C3_cutoff_drops_rest (step : St → Nat → Int → St × Int)
    (p : Player) (ply : Nat) (prev bs : Int) (ij : Fin 8 × Fin 8)
    (rest : List (Fin 8 × Fin 8)) (s : St) (maxE : Int)
    (cands : List (Fin 8 × Fin 8))
    (hply : 1 < ply)
    (hsp : s.board ij.1 ij.2 = ' ')
    (hch : (compute_effect s p ij.1 ij.2).2.2.length ≠ 0)
    (hcut : prev - (step (compute_effect s p ij.1 ij.2).1
      (compute_effect s p ij.1 ij.2).2.1 maxE).2 < bs)
    (hinv : maxE = INIT_MAX_EFFECT ∨ bs ≤ prev - maxE)
    (hgt : INIT_MAX_EFFECT < (step (compute_effect s p ij.1 ij.2).1
      (compute_effect s p ij.1 ij.2).2.1 maxE).2) :
    bmLoopGen step p ply prev bs (ij :: rest) s maxE cands =
      bmLoopGen step p ply prev bs [ij] s maxE cands ∧
    (bmLoopGen step p ply prev bs (ij :: rest) s maxE cands).2.2 = [ij] := by
  have hmax : maxE < (step (compute_effect s p ij.1 ij.2).1
      (compute_effect s p ij.1 ij.2).2.1 maxE).2 := by
    rcases hinv with rfl | h
    · exact hgt
    · omega
  have hP : (1 : Nat) < ply ∧ prev - (step (compute_effect s p ij.1 ij.2).1
      (compute_effect s p ij.1 ij.2).2.1 maxE).2 < bs ∧
      maxE < (step (compute_effect s p ij.1 ij.2).1
        (compute_effect s p ij.1 ij.2).2.1 maxE).2 := ⟨hply, hcut, hmax⟩
  constructor
  · rw [bmLoopGen, bmCell_move step p ply prev bs ij s maxE cands hsp hch,
      if_pos (by simp only [decide_eq_true_eq]; exact hP)]
    rw [bmLoopGen, bmCell_move step p ply prev bs ij s maxE cands hsp hch,
      if_pos (by simp only [decide_eq_true_eq]; exact hP)]
  · rw [bmLoopGen, bmCell_move step p ply prev bs ij s maxE cands hsp hch,
      if_pos (by simp only [decide_eq_true_eq]; exact hP)]
    show (candsUpd ij (step (compute_effect s p ij.1 ij.2).1
      (compute_effect s p ij.1 ij.2).2.1 maxE).2 maxE cands).2 = [ij]
    rw [candsUpd_newBest ij _ maxE cands hmax]

/-- C3 witness: at ply 2 with `prev = 0`, `best_sibling = 5`, the
first legal opening move scores 2 and `0 - 2 < 5` fires the cutoff:
the remaining cells are dropped and the cutting move is the sole
candidate. -/
theorem claim_C3_witness :
    bmLoopGen leafStep Player.X 2 0 5 [((2 : Fin 8), (4 : Fin 8)), (0, 0)]
        initSt INIT_MAX_EFFECT [] =
      bmLoopGen leafStep Player.X 2 0 5 [((2 : Fin 8), (4 : Fin 8))]
        initSt INIT_MAX_EFFECT [] ∧
    (bmLoopGen leafStep Player.X 2 0 5 [((2 : Fin 8), (4 : Fin 8)), (0, 0)]
        initSt INIT_MAX_EFFECT []).2.2 = [(2, 4)] :=
  claim_C3_cutoff_drops_rest leafStep Player.X 2 0 5 (2, 4) [(0, 0)] initSt
    INIT_MAX_EFFECT [] (by decide) (by decide) (by decide) (by decide)
    (Or.inl rfl) (by decide)

end Othello
